import Mathlib

/-!
Shallow embedding of the retrieval-and-answer-synthesis engine of the
Partner-Insights-Dashboard repository (file `src/genai/rag_engine.py`),
together with theorems settling the frozen claims C1-C10.

Strings are embedded as `List Char` (`Str`).  Python's `str` operations used
by the source are modelled character by character:
  * `begins p s`        models "s startswith p" (used to build the others);
  * `containsSub p s`   models Python's `p in s`;
  * `pyReplace p r s`   models `s.replace(p, r)` (all non-overlapping
                        occurrences, scanned left to right; the source only
                        calls it with non-empty `p`);
  * `pySplit sep s`     models `s.split(sep)` for a non-empty separator;
  * `stripL s`          models `s.strip()` with Python's whitespace set;
  * `lowerL s`          models `s.lower()` (ASCII case folding);
  * `pyTake k l`        models the slice `l[:k]` including negative bounds;
  * `pySetList l`       models `list(set(l))`.  CPython's set iteration
                        order is implementation defined; it is modelled
                        deterministically as first-occurrence order, and no
                        settled claim depends on the order chosen;
  * `natDigs n`         models the decimal rendering of an `int` inside an
                        f-string;
  * `parseFloatQ s`     models `float(s)` on strings made of digits and
                        dots: `none` is the `ValueError` case, and the
                        value is recorded as the exact decimal rational.
                        The one comparison the source performs on the
                        converted value, `float(g_val) > 20`, is embedded
                        by `floatGt20`, which accounts for the binary64
                        rounding `float` performs (see its doc comment).
Regular expressions are specialised to the two patterns the source uses:
`\b\w+\b` (maximal runs of word characters, `wordTokens`) and
`Revenue growth of ([\d.]+)%` (`matchGA` / `searchG`, leftmost match with
a greedy character-class capture, which backtracking cannot shrink since
`%` is not in the class).  Fallible code (the `float` conversion reachable
from `query`) is embedded in `Option`: `none` is a raised exception.
-/

/-- Strings of the embedded program. -/
abbrev Str := List Char

/-- `begins p s` : `s` starts with `p` (model of `str.startswith`). -/
def begins : Str → Str → Bool
  | [], _ => true
  | _ :: _, [] => false
  | a :: p, b :: s => a = b && begins p s

/-- Occurrence of `p` in `s` at character offset `i`. -/
def occursAt (p s : Str) (i : Nat) : Bool :=
  begins p (s.drop i)

/-- `containsSub p s` : Python's `p in s` substring test. -/
def containsSub (p s : Str) : Bool :=
  (List.range (s.length + 1)).any (fun i => occursAt p s i)

/-- Number of character offsets of `s` at which `p` occurs (every suffix
of `s`, the empty one included, contributes 1 when it starts with `p`). -/
def countOcc (p : Str) : Str → Nat
  | [] => if begins p [] = true then 1 else 0
  | c :: s => (if begins p (c :: s) = true then 1 else 0) + countOcc p s

/-- Model of Python `s.endswith(p)`. -/
def endsW (p s : Str) : Bool :=
  begins p (s.drop (s.length - p.length))

/-- Fuel-driven worker for `pyReplace`; the fuel dominates the string
length, so the exhausted case is unreachable. -/
def pyReplaceF (p r : Str) : Nat → Str → Str
  | _, [] => []
  | 0, s => s
  | fuel + 1, c :: s =>
    if p ≠ [] ∧ begins p (c :: s) = true then
      r ++ pyReplaceF p r fuel ((c :: s).drop p.length)
    else
      c :: pyReplaceF p r fuel s

/-- Model of Python `s.replace(p, r)` for non-empty `p`: every
non-overlapping occurrence, scanned left to right, is replaced. -/
def pyReplace (p r : Str) (s : Str) : Str :=
  pyReplaceF p r s.length s

/-- Fuel-driven worker for `pySplit`. -/
def pySplitF (sep : Str) : Nat → Str → List Str
  | _, [] => [[]]
  | 0, s => [s]
  | fuel + 1, c :: s =>
    if sep ≠ [] ∧ begins sep (c :: s) = true then
      [] :: pySplitF sep fuel ((c :: s).drop sep.length)
    else
      match pySplitF sep fuel s with
      | [] => [[c]]
      | t :: ts => (c :: t) :: ts

/-- Model of Python `s.split(sep)` for a non-empty `sep`: consecutive
separators produce empty parts, and `"".split(sep) = [""]`. -/
def pySplit (sep : Str) (s : Str) : List Str :=
  pySplitF sep s.length s

/-- Python's whitespace characters (`str.strip` default set). -/
def pySpace (c : Char) : Bool :=
  c = ' ' || c = '\t' || c = '\n' || c = '\r' || c = Char.ofNat 11 || c = Char.ofNat 12

/-- Model of Python `s.strip()`. -/
def stripL (s : Str) : Str :=
  ((s.dropWhile pySpace).reverse.dropWhile pySpace).reverse

/-- Model of Python `s.lower()` (ASCII case folding). -/
def lowerL (s : Str) : Str :=
  s.map Char.toLower

/-- Model of the slice `l[:k]`, including Python's negative-bound rule. -/
def pyTake (k : Int) (l : List α) : List α :=
  if 0 ≤ k then l.take k.toNat else l.take ((l.length : Int) + k).toNat

/-- Worker for `pySetList`, carrying the set of values already emitted. -/
def pySetAux (seen : List Str) : List Str → List Str
  | [] => []
  | x :: xs => if x ∈ seen then pySetAux seen xs else x :: pySetAux (x :: seen) xs

/-- Model of `list(set(l))`, iteration order fixed as first occurrence. -/
def pySetList (l : List Str) : List Str :=
  pySetAux [] l

/-- Fuel-driven worker for `natDigs`. -/
def natDigsF : Nat → Nat → Str
  | 0, _ => []
  | fuel + 1, n =>
    if n < 10 then [Char.ofNat (48 + n)]
    else natDigsF fuel (n / 10) ++ [Char.ofNat (48 + n % 10)]

/-- Decimal digits of `n`, most significant first: the rendering of an
`int` interpolated into an f-string. -/
def natDigs (n : Nat) : Str :=
  natDigsF (n + 1) n

/-- Characters admitted by the regex class `[\d.]`. -/
def digDot (c : Char) : Bool :=
  c.isDigit || c = '.'

/-- Numeric value of a digit string (most significant first). -/
def digitsVal (s : Str) : Nat :=
  s.foldl (fun a c => 10 * a + (c.toNat - 48)) 0

/-- Numerator of a digit-dot literal: the value of its digits in order
(integer part followed by fractional part). -/
def pfNum (s : Str) : Nat :=
  digitsVal (s.filter (fun c => c.isDigit))

/-- Number of fractional digits of a digit-dot literal. -/
def pfScale (s : Str) : Nat :=
  ((s.dropWhile (fun c => c.isDigit)).drop 1).length

/-- Model of Python `float(s)` restricted to strings of digits and dots
(the only shape the source can feed it): well formed iff it has at least
one digit and at most one dot; the result is the exact rational value
`pfNum s / 10 ^ pfScale s`.  `none` models the raised `ValueError`. -/
def parseFloatQ (s : Str) : Option ℚ :=
  if s ≠ [] ∧ s.all (fun c => digDot c) ∧ (s.filter (fun c => c = '.')).length ≤ 1
      ∧ s.any (fun c => c.isDigit) then
    some ((pfNum s : ℚ) / (10 : ℚ) ^ pfScale s)
  else
    none

/-- The comparison `float(g_val) > 20` of the source.  Python parses the
capture to the nearest binary64 double (correctly rounded,
round-to-nearest ties-to-even) and compares it with the exact double
`20.0`.  `20 = 1.01₂ × 2 ^ 4` has an even significand and
`ulp(20) = 2 ^ (4 - 52) = 2 ^ (-48)`, so the rounding boundary relevant to
the comparison is the midpoint `m = 20 + 2 ^ (-49)` between `20` and the
next double `20 + 2 ^ (-48)`: every decimal value in `[0, m]` rounds to a
double `≤ 20` (the tie at `m` itself rounds down to the even `20`), and
every value `> m` rounds to a double `≥ 20 + 2 ^ (-48) > 20` (values
beyond the largest double become `+inf`, which also compares greater; the
captures are non-negative digit-and-dot strings, so no sign cases arise).
The comparison is therefore exactly `value > 20 + 2 ^ (-49)`, written
below as the equivalent integer comparison on the decimal components
`pfNum s / 10 ^ pfScale s`; `floatGt20_iff_val` ties it to the rational
value of the literal. -/
def floatGt20 (s : Str) : Bool :=
  (20 * 2 ^ 49 + 1) * 10 ^ pfScale s < pfNum s * 2 ^ 49

/-- Length of `dropWhile` never exceeds the input length. -/
theorem length_dropWhile_le_len (p : α → Bool) (l : List α) :
    (l.dropWhile p).length ≤ l.length := by
  induction l with
  | nil => simp
  | cons a l ih =>
    simp only [List.dropWhile_cons]
    split
    · exact Nat.le_succ_of_le ih
    · simp

/-- Fuel-driven worker for `wordTokensBy`. -/
def wordTokensByF (p : Char → Bool) : Nat → Str → List Str
  | _, [] => []
  | 0, _ => []
  | fuel + 1, c :: s =>
    if p c then (c :: s.takeWhile p) :: wordTokensByF p fuel (s.dropWhile p)
    else wordTokensByF p fuel s

/-- `re.findall(r'\b\w+\b', s)` for a character class `p`: the maximal
non-empty runs of `p`-characters of `s`, in order. -/
def wordTokensBy (p : Char → Bool) (s : Str) : List Str :=
  wordTokensByF p s.length s

/-- Python's `\w` on ASCII text: alphanumerics and the underscore. -/
def wordChar (c : Char) : Bool :=
  c.isAlphanum || c = '_'

/-- Tokens of the source's `re.findall(r'\b\w+\b', s)`. -/
def wordTokens (s : Str) : List Str :=
  wordTokensBy wordChar s

/-! ### Fuel irrelevance and unfolding equations for the fuel-driven models -/

theorem pyReplaceF_fuel {p r : Str} :
    ∀ {f1 : Nat} {f2 : Nat} {s : Str}, s.length ≤ f1 → s.length ≤ f2 →
      pyReplaceF p r f1 s = pyReplaceF p r f2 s := by
  intro f1
  induction f1 with
  | zero =>
    intro f2 s h1 _
    have hs : s = [] := List.eq_nil_of_length_eq_zero (Nat.le_zero.mp h1)
    subst hs
    cases f2 <;> rfl
  | succ m ih =>
    intro f2 s h1 h2
    cases s with
    | nil => cases f2 <;> rfl
    | cons c s' =>
      cases f2 with
      | zero => simp at h2
      | succ g =>
        simp only [pyReplaceF]
        by_cases hc : p ≠ [] ∧ begins p (c :: s') = true
        · rw [if_pos hc, if_pos hc]
          congr 1
          have hp1 : 1 ≤ p.length := by
            rcases List.exists_cons_of_ne_nil hc.1 with ⟨x, xs, hx⟩
            rw [hx]
            simp
          apply ih
          · simp only [List.length_drop, List.length_cons]
            simp only [List.length_cons] at h1
            omega
          · simp only [List.length_drop, List.length_cons]
            simp only [List.length_cons] at h2
            omega
        · rw [if_neg hc, if_neg hc]
          congr 1
          apply ih
          · simp only [List.length_cons] at h1
            omega
          · simp only [List.length_cons] at h2
            omega

theorem pyReplace_nil (p r : Str) : pyReplace p r [] = [] := rfl

theorem pyReplace_cons (p r : Str) (c : Char) (s : Str) :
    pyReplace p r (c :: s)
      = if p ≠ [] ∧ begins p (c :: s) = true then
          r ++ pyReplace p r ((c :: s).drop p.length)
        else c :: pyReplace p r s := by
  unfold pyReplace
  simp only [List.length_cons, pyReplaceF]
  by_cases hc : p ≠ [] ∧ begins p (c :: s) = true
  · rw [if_pos hc, if_pos hc]
    congr 1
    have hp1 : 1 ≤ p.length := by
      rcases List.exists_cons_of_ne_nil hc.1 with ⟨x, xs, hx⟩
      rw [hx]
      simp
    apply pyReplaceF_fuel
    · simp only [List.length_drop, List.length_cons]
      omega
    · exact Nat.le_refl _
  · rw [if_neg hc, if_neg hc]

theorem pySplitF_fuel {sep : Str} :
    ∀ {f1 : Nat} {f2 : Nat} {s : Str}, s.length ≤ f1 → s.length ≤ f2 →
      pySplitF sep f1 s = pySplitF sep f2 s := by
  intro f1
  induction f1 with
  | zero =>
    intro f2 s h1 _
    have hs : s = [] := List.eq_nil_of_length_eq_zero (Nat.le_zero.mp h1)
    subst hs
    cases f2 <;> rfl
  | succ m ih =>
    intro f2 s h1 h2
    cases s with
    | nil => cases f2 <;> rfl
    | cons c s' =>
      cases f2 with
      | zero => simp at h2
      | succ g =>
        simp only [pySplitF]
        by_cases hc : sep ≠ [] ∧ begins sep (c :: s') = true
        · rw [if_pos hc, if_pos hc]
          congr 1
          have hp1 : 1 ≤ sep.length := by
            rcases List.exists_cons_of_ne_nil hc.1 with ⟨x, xs, hx⟩
            rw [hx]
            simp
          apply ih
          · simp only [List.length_drop, List.length_cons]
            simp only [List.length_cons] at h1
            omega
          · simp only [List.length_drop, List.length_cons]
            simp only [List.length_cons] at h2
            omega
        · rw [if_neg hc, if_neg hc]
          have he : pySplitF sep m s' = pySplitF sep g s' := by
            apply ih
            · simp only [List.length_cons] at h1
              omega
            · simp only [List.length_cons] at h2
              omega
          rw [he]

theorem pySplit_nil (sep : Str) : pySplit sep [] = [[]] := rfl

theorem pySplit_cons (sep : Str) (c : Char) (s : Str) :
    pySplit sep (c :: s)
      = if sep ≠ [] ∧ begins sep (c :: s) = true then
          [] :: pySplit sep ((c :: s).drop sep.length)
        else
          match pySplit sep s with
          | [] => [[c]]
          | t :: ts => (c :: t) :: ts := by
  unfold pySplit
  simp only [List.length_cons, pySplitF]
  by_cases hc : sep ≠ [] ∧ begins sep (c :: s) = true
  · rw [if_pos hc, if_pos hc]
    congr 1
    have hp1 : 1 ≤ sep.length := by
      rcases List.exists_cons_of_ne_nil hc.1 with ⟨x, xs, hx⟩
      rw [hx]
      simp
    apply pySplitF_fuel
    · simp only [List.length_drop, List.length_cons]
      omega
    · exact Nat.le_refl _
  · rw [if_neg hc, if_neg hc]

theorem wordTokensByF_fuel {p : Char → Bool} :
    ∀ {f1 : Nat} {f2 : Nat} {s : Str}, s.length ≤ f1 → s.length ≤ f2 →
      wordTokensByF p f1 s = wordTokensByF p f2 s := by
  intro f1
  induction f1 with
  | zero =>
    intro f2 s h1 _
    have hs : s = [] := List.eq_nil_of_length_eq_zero (Nat.le_zero.mp h1)
    subst hs
    cases f2 <;> rfl
  | succ m ih =>
    intro f2 s h1 h2
    cases s with
    | nil => cases f2 <;> rfl
    | cons c s' =>
      cases f2 with
      | zero => simp at h2
      | succ g =>
        simp only [wordTokensByF]
        simp only [List.length_cons] at h1 h2
        by_cases hc : p c = true
        · rw [if_pos hc, if_pos hc]
          congr 1
          have hd := length_dropWhile_le_len p s'
          apply ih
          · omega
          · omega
        · rw [if_neg hc, if_neg hc]
          apply ih
          · omega
          · omega

theorem wordTokensBy_nil (p : Char → Bool) : wordTokensBy p [] = [] := rfl

theorem wordTokensBy_cons (p : Char → Bool) (c : Char) (s : Str) :
    wordTokensBy p (c :: s)
      = if p c then (c :: s.takeWhile p) :: wordTokensBy p (s.dropWhile p)
        else wordTokensBy p s := by
  unfold wordTokensBy
  simp only [List.length_cons, wordTokensByF]
  by_cases hc : p c = true
  · rw [if_pos hc, if_pos hc]
    congr 1
    have hd := length_dropWhile_le_len p s
    apply wordTokensByF_fuel
    · omega
    · exact Nat.le_refl _
  · rw [if_neg hc, if_neg hc]

theorem natDigsF_fuel :
    ∀ {f1 : Nat} {f2 : Nat} {n : Nat}, n < f1 → n < f2 →
      natDigsF f1 n = natDigsF f2 n := by
  intro f1
  induction f1 with
  | zero =>
    intro f2 n h1 _
    omega
  | succ m ih =>
    intro f2 n h1 h2
    cases f2 with
    | zero => omega
    | succ g =>
      simp only [natDigsF]
      by_cases hn : n < 10
      · rw [if_pos hn, if_pos hn]
      · rw [if_neg hn, if_neg hn]
        have hdiv : n / 10 < n := Nat.div_lt_self (by omega) (by omega)
        congr 1
        apply ih
        · omega
        · omega

theorem natDigsF_succ (f n : Nat) :
    natDigsF (f + 1) n
      = if n < 10 then [Char.ofNat (48 + n)]
        else natDigsF f (n / 10) ++ [Char.ofNat (48 + n % 10)] := rfl

theorem natDigs_eq (n : Nat) :
    natDigs n = if n < 10 then [Char.ofNat (48 + n)]
      else natDigs (n / 10) ++ [Char.ofNat (48 + n % 10)] := by
  unfold natDigs
  rw [natDigsF_succ]
  by_cases hn : n < 10
  · rw [if_pos hn, if_pos hn]
  · rw [if_neg hn, if_neg hn]
    have hdiv : n / 10 < n := Nat.div_lt_self (by omega) (by omega)
    congr 1
    apply natDigsF_fuel
    · omega
    · omega

/-- Apostrophe character (U+0027), used inside the fixed answer strings. -/
def apos : Char := Char.ofNat 39

/-- Keyword for the growth topic boost. -/
def growthKw : Str := "growth".toList

/-- Keyword for the manufacturing topic boost. -/
def manufKw : Str := "manufacturing".toList

/-- A retrieval chunk: one non-empty stripped paragraph of a document. -/
structure Chunk where
  doc_id : Str
  chunk_id : Str
  text : Str
deriving DecidableEq

/-- A loaded document. -/
structure Doc where
  id : Str
  content : Str
deriving DecidableEq

/-- The markdown extension checked by `load_documents`. -/
def mdExt : Str := ".md".toList

/-- `RAGEngine.load_documents` over an in-memory directory listing of
(filename, file content) pairs: keep names ending in `.md` and record
`{id: filename.replace(".md", ""), content}`. -/
def loadDocuments (listing : List (Str × Str)) : List Doc :=
  listing.filterMap (fun fc =>
    if endsW mdExt fc.1 = true then some ⟨pyReplace mdExt [] fc.1, fc.2⟩ else none)

/-- The blank-line separator used by `create_chunks`. -/
def nlnl : Str := "\n\n".toList

/-- The chunks `RAGEngine.create_chunks` appends for one document:
paragraphs are `content.split("\n\n")`, enumerated from 0, and a chunk is
kept for each paragraph that is non-empty after stripping. -/
def chunksOfDoc (d : Doc) : List Chunk :=
  (pySplit nlnl d.content).enum.filterMap (fun ip =>
    if stripL ip.2 ≠ [] then
      some ⟨d.id, d.id ++ '_' :: natDigs ip.1, stripL ip.2⟩
    else none)

/-- `RAGEngine.create_chunks` over the loaded document list. -/
def createChunks (docs : List Doc) : List Chunk :=
  docs.flatMap chunksOfDoc

/-- Chunk sequence of an engine constructed over a directory listing. -/
def engineChunks (listing : List (Str × Str)) : List Chunk :=
  createChunks (loadDocuments listing)

/-- Token set of a string, as the Python `set(...)` of its tokens. -/
def tokF (s : Str) : Finset Str :=
  (wordTokens s).toFinset

/-- Score `RAGEngine.retrieve` assigns to a chunk for a query: size of the
intersection of the two token sets, plus 2 for each keyword (`growth`,
`manufacturing`) contained case-insensitively in both the query and the
chunk text. -/
def scoreOf (q : Str) (c : Chunk) : Nat :=
  (tokF (lowerL q) ∩ tokF (lowerL c.text)).card
    + (if containsSub growthKw (lowerL q) && containsSub growthKw (lowerL c.text) then 2 else 0)
    + (if containsSub manufKw (lowerL q) && containsSub manufKw (lowerL c.text) then 2 else 0)

/-- Modelled from the spec wording of claim C1 (refinement target, not from
the source): score with tokens taken as maximal *alphanumeric* runs. -/
def specScore (q : Str) (c : Chunk) : Nat :=
  ((wordTokensBy (fun c => c.isAlphanum) (lowerL q)).dedup.filter
      (fun t => t ∈ wordTokensBy (fun c => c.isAlphanum) (lowerL c.text))).length
    + (if containsSub growthKw (lowerL q) && containsSub growthKw (lowerL c.text) then 2 else 0)
    + (if containsSub manufKw (lowerL q) && containsSub manufKw (lowerL c.text) then 2 else 0)

/-- Modelled from the amended spec wording of claim C1: score with tokens
taken as maximal runs of word characters (alphanumeric or underscore),
counting the distinct query tokens shared with the chunk's tokens. -/
def specScoreW (q : Str) (c : Chunk) : Nat :=
  ((wordTokens (lowerL q)).dedup.filter
      (fun t => t ∈ wordTokens (lowerL c.text))).length
    + (if containsSub growthKw (lowerL q) && containsSub growthKw (lowerL c.text) then 2 else 0)
    + (if containsSub manufKw (lowerL q) && containsSub manufKw (lowerL c.text) then 2 else 0)

/-- Order on (score, original index, chunk) triples that realises Python's
stable descending sort on the score key: higher score first, ties by the
original position. -/
def scoreRel (a b : Nat × Nat × Chunk) : Prop :=
  b.1 < a.1 ∨ (a.1 = b.1 ∧ a.2.1 ≤ b.2.1)

instance : DecidableRel scoreRel :=
  fun a b => decidable_of_iff (b.1 < a.1 ∨ (a.1 = b.1 ∧ a.2.1 ≤ b.2.1)) Iff.rfl

instance : IsTotal (Nat × Nat × Chunk) scoreRel :=
  ⟨by
    intro a b
    unfold scoreRel
    omega⟩

instance : IsTrans (Nat × Nat × Chunk) scoreRel :=
  ⟨by
    intro a b c hab hbc
    unfold scoreRel at *
    omega⟩

/-- The `(score, chunk)` pairs built by `retrieve`, extended with the chunk's
original corpus position to express stability. -/
def scoredList (chunks : List Chunk) (q : Str) : List (Nat × Nat × Chunk) :=
  chunks.enum.map (fun ic => (scoreOf q ic.2, ic.1, ic.2))

/-- `scores.sort(key=lambda x: x[0], reverse=True)`: Python's sort is
stable, which coincides with sorting totally by (score desc, position asc). -/
def sortedScores (chunks : List Chunk) (q : Str) : List (Nat × Nat × Chunk) :=
  List.insertionSort scoreRel (scoredList chunks q)

/-- `scores[:top_k]` restricted to positive scores (still carrying score
and original position). -/
def retrieveScored (chunks : List Chunk) (q : Str) (k : Int) : List (Nat × Nat × Chunk) :=
  (pyTake k (sortedScores chunks q)).filter (fun t => 0 < t.1)

/-- `RAGEngine.retrieve`: the chunks of `retrieveScored`, in order. -/
def retrieveL (chunks : List Chunk) (q : Str) (k : Int) : List Chunk :=
  (retrieveScored chunks q k).map (fun t => t.2.2)

/-- The default system instruction of `generate_prompt`. -/
def defaultSystem : Str :=
  "You are a Partner Insights Assistant. Using the following retrieved context, answer the user".toList
    ++ apos :: "s question accurately. If the answer is not in the context, state that you don".toList
    ++ apos :: "t have enough information.".toList

/-- `system_prompt if system_prompt else default_system` (an empty
override is falsy in Python and falls back to the default). -/
def effSystem (sp : Option Str) : Str :=
  match sp with
  | some s => if s = [] then defaultSystem else s
  | none => defaultSystem

/-- The CONTEXT section: chunk texts under a per-document header, joined
by blank lines. -/
def ctxOf (rs : List Chunk) : Str :=
  List.intercalate nlnl (rs.map (fun c =>
    "--- Context from ".toList ++ c.doc_id ++ " ---\n".toList ++ c.text))

/-- The literal `RESPONSE:` marker of the prompt template. -/
def markerL : Str := "RESPONSE:".toList

/-- Everything `generate_prompt` renders before the final marker line. -/
def promptPre (q : Str) (rs : List Chunk) (sp : Option Str) : Str :=
  '\n' :: effSystem sp ++ "\n\nCONTEXT:\n".toList ++ ctxOf rs
    ++ "\n\nUSER QUESTION:\n".toList ++ q ++ nlnl

/-- `RAGEngine.generate_prompt`: the fixed template, ending with the
marker and a newline. -/
def genPrompt (q : Str) (rs : List Chunk) (sp : Option Str) : Str :=
  promptPre q rs sp ++ markerL ++ ['\n']

/-- The literal phrase of the growth-extraction regex. -/
def phraseG : Str := "Revenue growth of ".toList

/-- Match of `Revenue growth of ([\d.]+)%` anchored at the start of `s`:
the greedy class run cannot backtrack past a `%`, so the capture is the
maximal `[\d.]` run, and it must be non-empty and followed by `%`. -/
def matchGA (s : Str) : Option Str :=
  if begins phraseG s = true then
    if (s.drop phraseG.length).takeWhile digDot ≠ []
        ∧ begins ['%'] (((s.drop phraseG.length)).drop
            (((s.drop phraseG.length)).takeWhile digDot).length) = true then
      some ((s.drop phraseG.length).takeWhile digDot)
    else none
  else none

/-- `re.search`: leftmost match of the growth pattern. -/
def searchG : Str → Option Str
  | [] => none
  | c :: s =>
    match matchGA (c :: s) with
    | some v => some v
    | none => searchG s

/-- The capture `re.search(r"Revenue growth of ([\d.]+)%", text)` yields. -/
def extractGrowth (s : Str) : Option Str := searchG s

/-- Anchored growth-pattern match at offset `p` of `t`. -/
def growthMatchAt (t : Str) (p : Nat) : Option Str :=
  matchGA (t.drop p)

/-- The `(doc_id, captured value)` pairs the growth branch collects from
the retrieved chunks, one per chunk whose text matches. -/
def growthMatches (rs : List Chunk) : List (Str × Str) :=
  rs.filterMap (fun r => (extractGrowth r.text).map (fun v => (r.doc_id, v)))

/-- Literal `">20"` tested against the raw query. -/
def gt20L : Str := ">20".toList

/-- Literal `"high"` tested against the raw query. -/
def highL : Str := "high".toList

/-- `f"**{p_id}** ({g_val}% growth) - High Momentum"`. -/
def bulletHigh (pv : Str × Str) : Str :=
  "**".toList ++ pv.1 ++ "** (".toList ++ pv.2 ++ "% growth) - High Momentum".toList

/-- `f"**{p_id}** ({g_val}% growth)"`. -/
def bulletPlain (pv : Str × Str) : Str :=
  "**".toList ++ pv.1 ++ "** (".toList ++ pv.2 ++ "% growth)".toList

/-- Heading of the detailed growth analysis answer. -/
def headingG : Str := "### Detailed Growth Analysis\n".toList

/-- Fixed sentence when the high-growth filter keeps nothing. -/
def noneHighMsg : Str :=
  "I found growth data for several partners, but none currently exceed the specifically requested 20% growth threshold.".toList

/-- Fixed sentence when no growth percentage pattern was found at all. -/
def noMetricsMsg : Str :=
  "I see mentions of growth initiatives in the partner profiles, but specific percentage metrics were not found in the retrieved sections.".toList

/-- Sequencing of fallible per-element computations: the loop stops at the
first raised exception (`none`), mirroring Python's eager `for` loop. -/
def mapMO (f : α → Option β) : List α → Option (List β)
  | [] => some []
  | a :: l =>
    match f a with
    | none => none
    | some b => (mapMO f l).map (fun bs => b :: bs)

/-- The growth branch of `query` (lines 104-127): collects pattern
matches, converts each captured value with `float` (a conversion that can
raise, hence `Option`), filters on `> 20` when the query asks for high
growth, and renders bullets or a fixed sentence. -/
def growthBranch (q : Str) (rs : List Chunk) : Option Str :=
  if growthMatches rs = [] then some noMetricsMsg
  else
    (mapMO (fun pv => (parseFloatQ pv.2).map (fun _ =>
        if containsSub gt20L q || containsSub highL q then
          if floatGt20 pv.2 then [bulletHigh pv] else []
        else [bulletPlain pv])) (growthMatches rs)).map
      (fun ls =>
        if ls.flatten = [] then noneHighMsg
        else headingG ++ List.intercalate ['\n'] (ls.flatten.map (fun r => "- ".toList ++ r)))

/-- Fixed text before the named manufacturing partners. -/
def manufPre : Str :=
  "The following partners are currently categorized as **Manufacturing** sector experts: ".toList

/-- Fixed sentence when no retrieved chunk mentions manufacturing. -/
def noManufMsg : Str :=
  "I couldn".toList
    ++ apos :: "t find any partners specifically tagged with Manufacturing industry focus in the current retrieved documents.".toList

/-- The manufacturing branch of `query` (lines 129-134). -/
def manufBranch (rs : List Chunk) : Str :=
  if pySetList ((rs.filter (fun r => containsSub manufKw (lowerL r.text))).map
      (fun r => r.doc_id)) = [] then noManufMsg
  else
    manufPre ++ List.intercalate ", ".toList
      (pySetList ((rs.filter (fun r => containsSub manufKw (lowerL r.text))).map
        (fun r => r.doc_id))) ++ ['.']

/-- Fixed text around the generic branch's partner list. -/
def genericPre : Str := "I have analyzed profiles for ".toList

/-- Trailing text of the generic branch. -/
def genericSuf : Str :=
  ". Most show a strong strategic focus on digital transformation and IBM watsonx integration.".toList

/-- The generic branch of `query` (lines 136-138). -/
def genericBranch (rs : List Chunk) : Str :=
  genericPre ++ List.intercalate ", ".toList (pySetList (rs.map (fun r => r.doc_id)))
    ++ genericSuf

/-- The fixed closing remark appended to every synthesized answer. -/
def closingL : Str :=
  "\n\n**[IBM AI Insight]**: This data suggests a healthy pipeline for GenAI enablement. I recommend focusing on partners with growth >15% for the upcoming IBM ecosystem waves.".toList

/-- Fallback of the `if not response` guard (unreachable in practice
because the closing remark is non-empty, but modelled faithfully). -/
def neverEmptyMsg : Str :=
  "I".toList ++ apos :: "ve analyzed the documents but couldn".toList
    ++ apos :: "t generate a specific insight based on the current query keywords.".toList

/-- Fixed answer of the empty-retrieval branch. -/
def noInfoMsg : Str :=
  "I couldn".toList
    ++ apos :: "t find any relevant details in the current partner knowledge base to answer that.".toList

/-- The (misspelt in the source) retrieval-failure marker of the trace. -/
def retrFailMark : Str := "RETRIVAL FAILED".toList

/-- `RAGEngine.query`: retrieve with the default `top_k = 5`, short-circuit
on empty retrieval, branch on topic signals, append the closing remark,
and splice the answer into the rendered prompt after the marker.  `none`
models an uncaught exception (only the `float` conversion can raise). -/
def queryModel (chunks : List Chunk) (q : Str) (sp : Option Str) : Option (Str × Str) :=
  if retrieveL chunks q 5 = [] then
    some (noInfoMsg, retrFailMark ++ nlnl ++ noInfoMsg)
  else
    (if containsSub growthKw (lowerL q)
        || containsSub growthKw
          (lowerL (List.intercalate [' '] ((retrieveL chunks q 5).map (fun r => r.text)))) then
      growthBranch q (retrieveL chunks q 5)
    else if containsSub manufKw (lowerL q) then some (manufBranch (retrieveL chunks q 5))
    else some (genericBranch (retrieveL chunks q 5))).map
      (fun resp0 =>
        (if resp0 ++ closingL = [] then neverEmptyMsg else resp0 ++ closingL,
          pyReplace markerL
            (markerL ++ '\n' :: (if resp0 ++ closingL = [] then neverEmptyMsg else resp0 ++ closingL))
            (genPrompt q (retrieveL chunks q 5) sp)))

/-! ### Lemmas about `begins`, `occursAt`, `containsSub`, `countOcc` -/

theorem begins_iff : ∀ {p s : Str}, begins p s = true ↔ ∃ t, s = p ++ t := by
  intro p
  induction p with
  | nil => intro s; simp [begins]
  | cons a p ih =>
    intro s
    cases s with
    | nil =>
      simp only [begins]
      constructor
      · intro h; cases h
      · rintro ⟨t, ht⟩; cases ht
    | cons b s =>
      simp only [begins, Bool.and_eq_true, decide_eq_true_eq, ih, List.cons_append]
      constructor
      · rintro ⟨rfl, t, rfl⟩; exact ⟨t, rfl⟩
      · rintro ⟨t, ht⟩
        injection ht with h1 h2
        exact ⟨h1.symm, t, h2⟩

theorem begins_append (p t : Str) : begins p (p ++ t) = true :=
  begins_iff.mpr ⟨t, rfl⟩

theorem occursAt_iff {p s : Str} {i : Nat} :
    occursAt p s i = true ↔ ∃ t, s.drop i = p ++ t := begins_iff

theorem occursAt_cons_succ (p : Str) (c : Char) (s : Str) (i : Nat) :
    occursAt p (c :: s) (i + 1) = occursAt p s i := rfl

theorem occursAt_shift (p x s : Str) (i : Nat) :
    occursAt p (x ++ s) (x.length + i) = occursAt p s i := by
  induction x with
  | nil => simp
  | cons a x ih =>
    have : (a :: x).length + i = (x.length + i) + 1 := by simp; omega
    rw [this, List.cons_append, occursAt_cons_succ, ih]

theorem occursAt_append_left {p u : Str} {i : Nat} (v : Str)
    (h : occursAt p u i = true) : occursAt p (u ++ v) i = true := by
  rcases occursAt_iff.mp h with ⟨t, ht⟩
  rcases Nat.le_total i u.length with hle | hge
  · refine occursAt_iff.mpr ⟨t ++ v, ?_⟩
    rw [List.drop_append_of_le_length hle, ht, List.append_assoc]
  · have : u.drop i = [] := by
      apply List.drop_eq_nil_of_le hge
    rw [this] at ht
    have hp : p = [] := by
      cases p with
      | nil => rfl
      | cons a q => simp at ht
    subst hp
    simp [occursAt, begins]

theorem occursAt_lt_length {p s : Str} {i : Nat}
    (h : occursAt p s i = true) (hp : p ≠ []) : i < s.length := by
  rcases occursAt_iff.mp h with ⟨t, ht⟩
  rcases List.exists_cons_of_ne_nil hp with ⟨a, q, rfl⟩
  by_contra hlt
  have : s.drop i = [] := List.drop_eq_nil_of_le (Nat.le_of_not_lt hlt)
  rw [this] at ht
  simp at ht

theorem containsSub_iff {p s : Str} :
    containsSub p s = true ↔ ∃ a b, s = a ++ p ++ b := by
  constructor
  · intro h
    rcases List.any_eq_true.mp h with ⟨i, _, hi⟩
    rcases occursAt_iff.mp hi with ⟨t, ht⟩
    exact ⟨s.take i, t, by rw [List.append_assoc, ← ht, List.take_append_drop]⟩
  · rintro ⟨a, b, rfl⟩
    apply List.any_eq_true.mpr
    refine ⟨a.length, ?_, ?_⟩
    · apply List.mem_range.mpr
      simp
      omega
    · refine occursAt_iff.mpr ⟨b, ?_⟩
      rw [List.append_assoc, List.drop_left]

theorem containsSub_trans {p t s : Str} (h1 : containsSub p t = true)
    (h2 : containsSub t s = true) : containsSub p s = true := by
  rcases containsSub_iff.mp h1 with ⟨a, b, rfl⟩
  rcases containsSub_iff.mp h2 with ⟨x, y, rfl⟩
  exact containsSub_iff.mpr ⟨x ++ a, b ++ y, by simp⟩

theorem countOcc_eq_zero {p : Str} :
    ∀ {s : Str}, (∀ i, occursAt p s i = true → False) → countOcc p s = 0 := by
  intro s
  induction s with
  | nil =>
    intro h
    unfold countOcc
    rw [if_neg]
    intro hb
    exact h 0 hb
  | cons c s ih =>
    intro h
    unfold countOcc
    rw [if_neg (show ¬ begins p (c :: s) = true from fun hb => h 0 hb),
      ih (fun i hi => h (i + 1) hi)]

theorem countOcc_eq_one_of {p : Str} :
    ∀ {s : Str} {k : Nat}, occursAt p s k = true →
      (∀ i, occursAt p s i = true → i = k) → countOcc p s = 1 := by
  intro s
  induction s with
  | nil =>
    intro k hk _
    have hb : begins p [] = true := by
      have : ([] : Str).drop k = [] := by simp
      unfold occursAt at hk
      rw [this] at hk
      exact hk
    unfold countOcc
    rw [if_pos hb]
  | cons c s ih =>
    intro k hk h
    unfold countOcc
    by_cases hb : begins p (c :: s) = true
    · have hk0 : (0 : Nat) = k := h 0 hb
      rw [if_pos hb, countOcc_eq_zero]
      intro i hi
      have := h (i + 1) hi
      omega
    · cases k with
      | zero => exact absurd hk hb
      | succ k' =>
        rw [if_neg hb, Nat.zero_add]
        apply ih hk
        intro i hi
        have := h (i + 1) hi
        omega

theorem one_le_countOcc {p : Str} :
    ∀ {s : Str} {i : Nat}, occursAt p s i = true → 1 ≤ countOcc p s := by
  intro s
  induction s with
  | nil =>
    intro i hi
    have hb : begins p [] = true := by
      have hd : ([] : Str).drop i = [] := by simp
      unfold occursAt at hi
      rw [hd] at hi
      exact hi
    unfold countOcc
    rw [if_pos hb]
  | cons c s ih =>
    intro i hi
    unfold countOcc
    cases i with
    | zero =>
      rw [if_pos (show begins p (c :: s) = true from hi)]
      omega
    | succ i' =>
      have := ih hi
      omega

theorem two_le_countOcc {p : Str} (hp : p ≠ []) :
    ∀ {s : Str} {i j : Nat}, i < j → occursAt p s i = true → occursAt p s j = true →
      2 ≤ countOcc p s := by
  intro s
  induction s with
  | nil =>
    intro i j hij hi hj
    have hb : begins p [] = true := by
      have hd : ([] : Str).drop i = [] := by simp
      unfold occursAt at hi
      rw [hd] at hi
      exact hi
    exfalso
    cases hc : p with
    | nil => exact hp hc
    | cons a q =>
      rw [hc] at hb
      cases hb
  | cons c s ih =>
    intro i j hij hi hj
    unfold countOcc
    cases i with
    | zero =>
      cases j with
      | zero => omega
      | succ j' =>
        rw [if_pos (show begins p (c :: s) = true from hi)]
        have := one_le_countOcc (s := s) (i := j') hj
        omega
    | succ i' =>
      cases j with
      | zero => omega
      | succ j' =>
        have := ih (by omega : i' < j') hi hj
        omega

/-- An occurrence in `u ++ ch :: v` of a pattern avoiding `ch` lies
entirely inside `u` or entirely inside `v`. -/
theorem occursAt_split {p : Str} {ch : Char} {u v : Str} {i : Nat}
    (hch : ch ∉ p) (h : occursAt p (u ++ ch :: v) i = true) :
    occursAt p u i = true ∨ (u.length + 1 ≤ i ∧ occursAt p v (i - (u.length + 1)) = true) := by
  rcases eq_or_ne p [] with rfl | hp
  · left
    simp [occursAt, begins]
  rcases Nat.lt_or_ge i (u.length + 1) with hi | hi
  · -- the occurrence starts inside `u` (or at its end)
    have hiu : i ≤ u.length := by omega
    rcases Nat.lt_or_ge u.length (i + p.length) with hmid | hfit
    · -- it would have to cover the separator character: impossible
      exfalso
      rcases occursAt_iff.mp h with ⟨t, ht⟩
      rw [List.drop_append_of_le_length hiu] at ht
      have hdlen : (u.drop i).length = u.length - i := by simp
      have hdlt : (u.drop i).length < p.length := by rw [hdlen]; omega
      have h2 : p.drop (u.drop i).length ++ t = ch :: v := by
        have h3 := congrArg (List.drop (u.drop i).length) ht
        rw [List.drop_left, List.drop_append_of_le_length (Nat.le_of_lt hdlt)] at h3
        exact h3.symm
      have hne : p.drop (u.drop i).length ≠ [] := by
        intro hnil
        have h4 := congrArg List.length hnil
        simp at h4
        omega
      rcases List.exists_cons_of_ne_nil hne with ⟨x, rest, hx⟩
      rw [hx] at h2
      injection h2 with hxe _
      apply hch
      have hxm : x ∈ p.drop (u.drop i).length := by
        rw [hx]
        exact List.mem_cons_self _ _
      have hmem := List.mem_of_mem_drop hxm
      rwa [hxe] at hmem
    · -- the occurrence also ends inside `u`
      left
      rcases occursAt_iff.mp h with ⟨t, ht⟩
      rw [List.drop_append_of_le_length hiu] at ht
      refine occursAt_iff.mpr ⟨(u.drop i).drop p.length, ?_⟩
      have htake : (u.drop i).take p.length = p := by
        have h1 := congrArg (List.take p.length) ht
        rw [List.take_append_of_le_length (by simp; omega),
          List.take_append_of_le_length (Nat.le_refl _), List.take_length] at h1
        exact h1
      have hsplit := (List.take_append_drop p.length (u.drop i)).symm
      rw [htake] at hsplit
      exact hsplit
  · -- the occurrence lies inside `v`
    right
    refine ⟨hi, ?_⟩
    have hdecomp : u ++ ch :: v = (u ++ [ch]) ++ v := by simp
    have hlen2 : (u ++ [ch]).length = u.length + 1 := by simp
    have hi2 : i = (u ++ [ch]).length + (i - (u.length + 1)) := by rw [hlen2]; omega
    rw [hdecomp, hi2, occursAt_shift] at h
    exact h

/-- `str.replace` leaves a string without occurrences unchanged. -/
theorem pyReplace_eq_self {p r : Str} :
    ∀ {s : Str}, (∀ i, occursAt p s i = true → False) → pyReplace p r s = s := by
  intro s
  induction s with
  | nil => intro _; rfl
  | cons c s ih =>
    intro h
    rw [pyReplace_cons]
    split
    · rename_i hcond
      exact absurd (h 0 hcond.2) id
    · have h2 : ∀ i, occursAt p s i = true → False := by
        intro i hi
        exact h (i + 1) ((occursAt_cons_succ p c s i).symm ▸ hi)
      rw [ih h2]

/-- `str.replace` on a string with a single occurrence, sitting between
`a` and `b`, rewrites exactly that occurrence. -/
theorem pyReplace_unique {p r : Str} (hp : p ≠ []) :
    ∀ (a b : Str), (∀ i, occursAt p (a ++ p ++ b) i = true → i = a.length) →
    pyReplace p r (a ++ p ++ b) = a ++ r ++ b := by
  intro a
  induction a with
  | nil =>
    intro b h
    rcases List.exists_cons_of_ne_nil hp with ⟨c, p', rfl⟩
    simp only [List.nil_append]
    have hform : ((c :: p') ++ b : Str) = c :: (p' ++ b) := rfl
    rw [hform, pyReplace_cons]
    split
    · have hdrop : (c :: (p' ++ b) : Str).drop (c :: p').length = b := by
        rw [← hform, List.drop_left]
      rw [hdrop]
      have hb : ∀ j, occursAt (c :: p') b j = true → False := by
        intro j hj
        have hlift : occursAt (c :: p') ((c :: p') ++ b) ((c :: p').length + j) = true := by
          rw [occursAt_shift]
          exact hj
        have hj2 := h ((c :: p').length + j) (by simpa using hlift)
        simp at hj2
      rw [pyReplace_eq_self hb]
    · rename_i hcond
      exfalso
      apply hcond
      refine ⟨by simp, ?_⟩
      have hba := begins_append (c :: p') b
      rw [hform] at hba
      exact hba
  | cons x a' ih =>
    intro b h
    have hform : ((x :: a') ++ p ++ b : Str) = x :: (a' ++ p ++ b) := by simp
    rw [hform, pyReplace_cons]
    split
    · rename_i hcond
      exfalso
      have h0 : occursAt p ((x :: a') ++ p ++ b) 0 = true := by
        rw [hform]
        exact hcond.2
      have h0' := h 0 h0
      simp at h0'
    · have h' : ∀ i, occursAt p (a' ++ p ++ b) i = true → i = a'.length := by
        intro i hi
        have hlift : occursAt p (x :: (a' ++ p ++ b)) (i + 1) = true := by
          rw [occursAt_cons_succ]
          exact hi
        rw [← hform] at hlift
        have := h (i + 1) hlift
        simp at this
        omega
      rw [ih b h']
      simp

/-! ### Retrieval: ordering and stability -/

/-- The sorted score list is strictly ordered by the lexicographic key
(score descending, original position ascending): Python's stable sort. -/
theorem sortedScores_pairwise (chunks : List Chunk) (q : Str) :
    (sortedScores chunks q).Pairwise
      (fun a b => b.1 < a.1 ∨ (a.1 = b.1 ∧ a.2.1 < b.2.1)) := by
  have hs : (sortedScores chunks q).Pairwise scoreRel :=
    List.sorted_insertionSort scoreRel (scoredList chunks q)
  have hperm : List.Perm (sortedScores chunks q) (scoredList chunks q) :=
    List.perm_insertionSort scoreRel (scoredList chunks q)
  have hmap : (scoredList chunks q).map (fun t => t.2.1) = List.range chunks.length := by
    unfold scoredList
    rw [List.map_map]
    have : ((fun t : Nat × Nat × Chunk => t.2.1) ∘ fun ic : Nat × Chunk =>
        (scoreOf q ic.2, ic.1, ic.2)) = Prod.fst := by
      funext ic
      rfl
    rw [this, List.enum_map_fst]
  have hnods : ((scoredList chunks q).map (fun t => t.2.1)).Nodup := by
    rw [hmap]
    exact List.nodup_range _
  have hnod : ((sortedScores chunks q).map (fun t => t.2.1)).Nodup :=
    (hperm.map (fun t => t.2.1)).nodup_iff.mpr hnods
  have hne : (sortedScores chunks q).Pairwise (fun a b => a.2.1 ≠ b.2.1) :=
    List.pairwise_map.mp hnod
  refine (hs.and hne).imp ?_
  intro a b hab
  rcases hab with ⟨hr | hr, hne2⟩
  · exact Or.inl hr
  · exact Or.inr ⟨hr.1, lt_of_le_of_ne hr.2 hne2⟩

/-- Every scored triple records the score of its chunk and the chunk's
original position in the corpus. -/
theorem mem_scoredList {chunks : List Chunk} {q : Str} {t : Nat × Nat × Chunk}
    (h : t ∈ scoredList chunks q) :
    t.1 = scoreOf q t.2.2 ∧ chunks[t.2.1]? = some t.2.2 := by
  unfold scoredList at h
  rcases List.mem_map.mp h with ⟨ic, hic, rfl⟩
  rcases List.mem_enum hic with ⟨hlt, hval⟩
  exact ⟨rfl, by rw [List.getElem?_eq_getElem hlt, ← hval]⟩

/-- The retrieved scored prefix is a sublist of the sorted score list. -/
theorem retrieveScored_sublist (chunks : List Chunk) (q : Str) (k : Int) :
    (retrieveScored chunks q k).Sublist (sortedScores chunks q) := by
  unfold retrieveScored pyTake
  split
  · exact (List.filter_sublist _).trans (List.take_sublist _ _)
  · exact (List.filter_sublist _).trans (List.take_sublist _ _)

/-! ### Concrete corpora used by witnesses and counterexamples -/

/-- Three-chunk corpus with a score tie between the first and last chunk. -/
def wChunks : List Chunk :=
  [⟨"c0".toList, "c0_0".toList, "alpha beta".toList⟩,
   ⟨"c1".toList, "c1_0".toList, "alpha".toList⟩,
   ⟨"c2".toList, "c2_0".toList, "alpha beta gamma".toList⟩]

/-- Query matching all three `wChunks`, with a tie on the outer two. -/
def wQuery : Str := "alpha beta".toList

/-- C2: for every corpus, query and positive `top_k`, `retrieve` returns at
most `top_k` entries; every returned entry has strictly positive score,
which is the score of its chunk, and records a valid original corpus
position holding that chunk; entries are ordered by score descending, with
equal scores in original corpus order (stable sort, no secondary key); the
returned chunk list is exactly the projection of this scored list, so
fewer than `top_k` results is a valid outcome. -/
theorem c2_retrieve_bound_positive_stable (chunks : List Chunk) (q : Str) (k : Int)
    (hk : 0 < k) :
    ((retrieveScored chunks q k).length : Int) ≤ k
    ∧ (∀ t ∈ retrieveScored chunks q k,
        0 < t.1 ∧ t.1 = scoreOf q t.2.2 ∧ chunks[t.2.1]? = some t.2.2)
    ∧ (retrieveScored chunks q k).Pairwise
        (fun a b => b.1 < a.1 ∨ (a.1 = b.1 ∧ a.2.1 < b.2.1))
    ∧ retrieveL chunks q k = (retrieveScored chunks q k).map (fun t => t.2.2) := by
  refine ⟨?_, ?_, ?_, rfl⟩
  · unfold retrieveScored pyTake
    rw [if_pos (le_of_lt hk)]
    have h1 : (((sortedScores chunks q).take k.toNat).filter (fun t => 0 < t.1)).length
        ≤ k.toNat :=
      le_trans (List.length_filter_le _ _) (by simp [List.length_take])
    omega
  · intro t ht
    have hms := List.mem_filter.mp ht
    have hpos : 0 < t.1 := by
      have := hms.2
      simpa using this
    have hmem : t ∈ sortedScores chunks q :=
      (retrieveScored_sublist chunks q k).subset ht
    have hmem2 : t ∈ scoredList chunks q :=
      (List.perm_insertionSort scoreRel (scoredList chunks q)).subset hmem
    rcases mem_scoredList hmem2 with ⟨hsc, hget⟩
    exact ⟨hpos, hsc, hget⟩
  · exact List.Pairwise.sublist (retrieveScored_sublist chunks q k)
      (sortedScores_pairwise chunks q)

/-- C2 witness: the ordering facts instantiated on a concrete corpus with a
tie, at `top_k = 2`. -/
theorem c2_retrieve_bound_positive_stable_witness :
    (0 : Int) < 2
    ∧ (((retrieveScored wChunks wQuery 2).length : Int) ≤ 2
      ∧ (∀ t ∈ retrieveScored wChunks wQuery 2,
          0 < t.1 ∧ t.1 = scoreOf wQuery t.2.2 ∧ wChunks[t.2.1]? = some t.2.2)
      ∧ (retrieveScored wChunks wQuery 2).Pairwise
          (fun a b => b.1 < a.1 ∨ (a.1 = b.1 ∧ a.2.1 < b.2.1))
      ∧ retrieveL wChunks wQuery 2 = (retrieveScored wChunks wQuery 2).map (fun t => t.2.2)) :=
  ⟨by decide, c2_retrieve_bound_positive_stable wChunks wQuery 2 (by decide)⟩

/-- C4: whenever retrieval is empty — in particular for every query on an
engine whose corpus directory is missing or empty, whose chunk set is
therefore empty — `query` returns the fixed insufficient-information
answer together with a trace equal to the fixed failure marker followed by
a blank line and that same sentence (so the trace begins with the marker),
and no later pipeline step contributes to the result. -/
theorem c4_empty_retrieval_short_circuit :
    (∀ chunks q sp, retrieveL chunks q 5 = [] →
      queryModel chunks q sp = some (noInfoMsg, retrFailMark ++ nlnl ++ noInfoMsg)
      ∧ begins retrFailMark (retrFailMark ++ nlnl ++ noInfoMsg) = true)
    ∧ (∀ q sp, queryModel (engineChunks []) q sp
        = some (noInfoMsg, retrFailMark ++ nlnl ++ noInfoMsg)) := by
  have hgen : ∀ chunks q sp, retrieveL chunks q 5 = [] →
      queryModel chunks q sp = some (noInfoMsg, retrFailMark ++ nlnl ++ noInfoMsg) := by
    intro chunks q sp h
    unfold queryModel
    rw [if_pos h]
  refine ⟨?_, ?_⟩
  · intro chunks q sp h
    refine ⟨hgen chunks q sp h, ?_⟩
    rw [List.append_assoc]
    exact begins_append _ _
  · intro q sp
    apply hgen
    rfl

/-- C4 witness: the empty-retrieval branch evaluated on the engine of an
empty directory listing with a concrete query. -/
theorem c4_empty_retrieval_short_circuit_witness :
    retrieveL (engineChunks []) ("hello".toList) 5 = []
    ∧ queryModel (engineChunks []) ("hello".toList) none
        = some (noInfoMsg, retrFailMark ++ nlnl ++ noInfoMsg) :=
  ⟨by decide,
    (c4_empty_retrieval_short_circuit.1 (engineChunks []) ("hello".toList) none (by decide)).1⟩

/-- Chunk used by the C9 counterexample. -/
def cexChunk : Chunk := ⟨"d".toList, "d_0".toList, "hello".toList⟩

/-- C9 counterexample: `top_k = 0` returns nothing although a positively
scored chunk exists, while `top_k = 1` returns it — so `retrieve` neither
clamps `top_k ≤ 0` to 1 nor rejects it (the call returns normally). -/
theorem c9_cex_topk_zero :
    retrieveL [cexChunk] ("hello".toList) 0 = []
    ∧ retrieveL [cexChunk] ("hello".toList) 1 = [cexChunk] := by
  decide

/-- C9 amended: `retrieve` applies Python slice semantics to a
non-positive `top_k` instead of clamping or rejecting: `top_k = 0` always
yields the empty list, and a negative `top_k` keeps only the
positive-score entries among the sorted list with its last `|top_k|`
entries removed. -/
theorem c9_amended_slice_semantics :
    (∀ chunks q, retrieveL chunks q 0 = [])
    ∧ (∀ chunks (q : Str) (k : Int), k < 0 →
        retrieveScored chunks q k
          = ((sortedScores chunks q).take
              (((sortedScores chunks q).length : Int) + k).toNat).filter
              (fun t => 0 < t.1)) := by
  constructor
  · intro chunks q
    unfold retrieveL retrieveScored pyTake
    simp
  · intro chunks q k hk
    unfold retrieveScored pyTake
    rw [if_neg (not_le.mpr hk)]

/-- C9 amended witness: slice semantics at `top_k = -1` on the concrete
three-chunk corpus. -/
theorem c9_amended_slice_semantics_witness :
    (-1 : Int) < 0
    ∧ retrieveScored wChunks wQuery (-1)
        = ((sortedScores wChunks wQuery).take
            (((sortedScores wChunks wQuery).length : Int) + (-1)).toNat).filter
            (fun t => 0 < t.1) :=
  ⟨by decide, c9_amended_slice_semantics.2 wChunks wQuery (-1) (by decide)⟩

/-- Directory listing of the C6 failing input: a document whose growth
pattern captures `..`, which `float` cannot convert. -/
def c6Listing : List (Str × Str) :=
  [("g.md".toList, "Revenue growth of ..% expected".toList)]

/-- C6: the claim that `query` never raises is wrong on the code: on this
corpus the chunk is retrieved (the growth boost applies), the growth
branch matches the pattern with capture `..`, and `float("..")` raises a
`ValueError` — the embedded pipeline aborts with `none`. -/
theorem c6_float_conversion_raises :
    queryModel (engineChunks c6Listing) ("growth".toList) none = none := by
  decide

/-! ### Growth extraction: leftmost match -/

/-- `re.search` returns the value of a match no later than any given
matching position. -/
theorem searchG_first :
    ∀ {t : Str} {p : Nat} {v : Str}, growthMatchAt t p = some v →
      ∃ p₀ v₀, p₀ ≤ p ∧ growthMatchAt t p₀ = some v₀ ∧ searchG t = some v₀ := by
  intro t
  induction t with
  | nil =>
    intro p v h
    unfold growthMatchAt at h
    rw [List.drop_nil] at h
    rw [show matchGA ([] : Str) = none from by decide] at h
    cases h
  | cons c t' ih =>
    intro p v h
    cases hm : matchGA (c :: t') with
    | some u =>
      refine ⟨0, u, Nat.zero_le _, ?_, ?_⟩
      · unfold growthMatchAt
        rw [List.drop_zero]
        exact hm
      · unfold searchG
        rw [hm]
    | none =>
      cases p with
      | zero =>
        unfold growthMatchAt at h
        rw [List.drop_zero] at h
        rw [hm] at h
        cases h
      | succ p' =>
        have h' : growthMatchAt t' p' = some v := h
        rcases ih h' with ⟨p₀, v₀, hle, hm0, hs⟩
        refine ⟨p₀ + 1, v₀, by omega, hm0, ?_⟩
        unfold searchG
        rw [hm]
        exact hs

/-- Text with two growth-pattern occurrences, for the C10 witness. -/
def c10Text : Str :=
  "Revenue growth of 25.0% and Revenue growth of 30.0% soon".toList

/-- C10: when a chunk's text matches the growth pattern at two positions
`p < q`, the extraction used by the growth branch returns the value of an
occurrence at some `p₀ ≤ p`, strictly before `q` — the later occurrence
contributes nothing — and a retrieved chunk with that text contributes
exactly the single pair `(doc_id, v₀)` to the collected matches. -/
theorem c10_first_occurrence_only (t : Str) (p q : Nat) (v w : Str)
    (hpq : p < q) (hp : growthMatchAt t p = some v) (hq : growthMatchAt t q = some w) :
    ∃ p₀ v₀, p₀ ≤ p ∧ p₀ < q ∧ growthMatchAt t p₀ = some v₀
      ∧ extractGrowth t = some v₀
      ∧ ∀ d cid, growthMatches [⟨d, cid, t⟩] = [(d, v₀)] := by
  rcases searchG_first hp with ⟨p₀, v₀, hle, hm, hs⟩
  refine ⟨p₀, v₀, hle, by omega, hm, hs, ?_⟩
  intro d cid
  unfold growthMatches extractGrowth
  simp [List.filterMap, extractGrowth, hs]

/-- C10 witness: the two-occurrence text, matched at offsets 0 and 28;
extraction returns the first capture `25.0`. -/
theorem c10_first_occurrence_only_witness :
    (0 : Nat) < 28
    ∧ (∃ p₀ v₀, p₀ ≤ 0 ∧ p₀ < 28 ∧ growthMatchAt c10Text p₀ = some v₀
        ∧ extractGrowth c10Text = some v₀
        ∧ ∀ d cid, growthMatches [⟨d, cid, c10Text⟩] = [(d, v₀)])
    ∧ extractGrowth c10Text = some ("25.0".toList) :=
  ⟨by decide,
    c10_first_occurrence_only c10Text 0 28 ("25.0".toList) ("30.0".toList)
      (by decide) (by decide) (by decide),
    by decide⟩

/-! ### The growth branch under the high-growth filter -/

/-- Value of a successfully converted capture (only used under the
hypothesis that the conversion succeeds). -/
def gvalQ (s : Str) : ℚ :=
  (parseFloatQ s).getD 0

/-- The exact decision threshold of the source comparison
`float(g_val) > 20` under binary64 rounding: the midpoint `20 + 2 ^ (-49)`
between `20.0` and the next double (see `floatGt20`). -/
def hiThreshold : ℚ :=
  (20 * 2 ^ 49 + 1) / 2 ^ 49

/-- The executable comparison holds exactly when the rational value of a
convertible literal exceeds the binary64 decision threshold. -/
theorem floatGt20_iff_val {s : Str} {x : ℚ} (h : parseFloatQ s = some x) :
    floatGt20 s = true ↔ hiThreshold < x := by
  unfold parseFloatQ at h
  split at h
  · have hx : x = (pfNum s : ℚ) / (10 : ℚ) ^ pfScale s := by
      injection h with h'
      exact h'.symm
    subst hx
    unfold floatGt20 hiThreshold
    rw [div_lt_div_iff₀ (by positivity) (by positivity)]
    rw [decide_eq_true_eq]
    constructor
    · intro hlt
      exact_mod_cast hlt
    · intro hlt
      exact_mod_cast hlt
  · cases h

/-- When every captured value converts, the conversion loop of the growth
branch produces exactly the per-pair bullet lists. -/
theorem growth_mapM_eq (q : Str) :
    ∀ (ms : List (Str × Str)), (∀ pv ∈ ms, (parseFloatQ pv.2).isSome = true) →
    (mapMO (fun pv => (parseFloatQ pv.2).map (fun _ =>
        if containsSub gt20L q || containsSub highL q then
          if floatGt20 pv.2 then [bulletHigh pv] else []
        else [bulletPlain pv])) ms)
      = some (ms.map (fun pv =>
          if containsSub gt20L q || containsSub highL q then
            if floatGt20 pv.2 then [bulletHigh pv] else []
          else [bulletPlain pv])) := by
  intro ms
  induction ms with
  | nil => intro _; rfl
  | cons a l ih =>
    intro h
    have ha := h a (List.mem_cons_self a l)
    rcases Option.isSome_iff_exists.mp ha with ⟨x, hx⟩
    have hl := ih (fun pv hpv => h pv (List.mem_cons_of_mem a hpv))
    simp only [mapMO, hx, Option.map_some', hl, List.map_cons]

/-- Flattening singleton-or-empty lists built from a test is filtering. -/
theorem flatten_guard_eq_filter (p : α → Bool) (f : α → β) :
    ∀ l : List α, (l.map (fun a => if p a = true then [f a] else [])).flatten
      = (l.filter p).map f := by
  intro l
  induction l with
  | nil => rfl
  | cons a l ih =>
    by_cases hp : p a = true
    · simp [hp, ih]
    · simp [hp, ih]

/-- Capture of the C3 counterexample: its decimal value strictly exceeds
`20`, but by less than `2 ^ (-49)`, so `float` rounds it to the double
`20.0`. -/
def c3CexVal : Str := "20.0000000000000001".toList

/-- Retrieved chunks of the C3 counterexample. -/
def c3CexChunks : List Chunk :=
  [⟨"p".toList, "p_0".toList,
    "Revenue growth of 20.0000000000000001% expected".toList⟩]

/-- C3 counterexample: the source compares the binary64 rounding of the
capture, not its exact decimal value.  The capture `20.0000000000000001`
converts successfully and strictly exceeds `20` as a number, yet
`float` rounds it to `20.0`, so on a query containing `"high"` the code
excludes the pair and answers the fixed no-partner-exceeds-the-threshold
sentence where the claim demands a High Momentum bullet for it. -/
theorem c3_cex_binary64_rounding :
    growthBranch ("high growth".toList) c3CexChunks = some noneHighMsg
    ∧ growthMatches c3CexChunks = [(("p".toList : Str), c3CexVal)]
    ∧ (parseFloatQ c3CexVal).isSome = true
    ∧ (20 : ℚ) < gvalQ c3CexVal := by
  refine ⟨by decide, by decide, by decide, ?_⟩
  have hp : parseFloatQ c3CexVal
      = some ((pfNum c3CexVal : ℚ) / (10 : ℚ) ^ pfScale c3CexVal) := by
    unfold parseFloatQ
    exact if_pos (by decide)
  have hg : gvalQ c3CexVal = (pfNum c3CexVal : ℚ) / (10 : ℚ) ^ pfScale c3CexVal := by
    unfold gvalQ
    rw [hp]
    rfl
  rw [hg, lt_div_iff₀ (by positivity)]
  have h20 : (20 * 10 ^ pfScale c3CexVal : ℕ) < pfNum c3CexVal := by decide
  exact_mod_cast h20

/-- C3 amended: in the growth branch, when the query contains `">20"` or
`"high"` and every captured value converts, exactly the pairs whose
numeric value exceeds the binary64 decision threshold `20 + 2 ^ (-49)` —
equivalently, whose value as a Python `float` exceeds `20.0` — are
rendered, each as a `- **{doc_id}** ({value}% growth) - High Momentum`
bullet under the analysis heading, and if no pair survives the filter the
branch answers the fixed no-partner-exceeds-the-20%-threshold sentence. -/
theorem c3_amended_high_growth_filter (q : Str) (rs : List Chunk)
    (hmode : (containsSub gt20L q || containsSub highL q) = true)
    (hms : growthMatches rs ≠ [])
    (hp : ∀ pv ∈ growthMatches rs, (parseFloatQ pv.2).isSome = true) :
    growthBranch q rs
      = some (if ((growthMatches rs).filter (fun pv => hiThreshold < gvalQ pv.2)) = []
          then noneHighMsg
          else headingG ++ List.intercalate ['\n']
            (((growthMatches rs).filter (fun pv => hiThreshold < gvalQ pv.2)).map
              (fun pv => "- ".toList ++ bulletHigh pv))) := by
  have hfil : (growthMatches rs).filter (fun pv => decide (hiThreshold < gvalQ pv.2))
      = (growthMatches rs).filter (fun pv => floatGt20 pv.2) := by
    apply List.filter_congr
    intro pv hpv
    rcases Option.isSome_iff_exists.mp (hp pv hpv) with ⟨x, hx⟩
    have hiff := floatGt20_iff_val hx
    have hgv : gvalQ pv.2 = x := by
      unfold gvalQ
      rw [hx]
      rfl
    rw [hgv]
    by_cases h20 : hiThreshold < x
    · simp [h20, hiff.mpr h20]
    · have : ¬ floatGt20 pv.2 = true := fun hc => h20 (hiff.mp hc)
      simp [h20, this]
  unfold growthBranch
  rw [if_neg hms, growth_mapM_eq q (growthMatches rs) hp]
  simp only [Option.map_some', hmode, if_true]
  congr 1
  rw [flatten_guard_eq_filter (fun pv => floatGt20 pv.2) bulletHigh, ← hfil]
  by_cases hf : ((growthMatches rs).filter (fun pv => hiThreshold < gvalQ pv.2)) = []
  · rw [hf]
    simp
  · rw [if_neg (by simpa using hf), if_neg hf, List.map_map]
    rfl

/-- Retrieved chunks for the C3 witness: one above and one below the
threshold. -/
def c3Chunks : List Chunk :=
  [⟨"alpha".toList, "alpha_0".toList, "Revenue growth of 25.0% next fiscal year".toList⟩,
   ⟨"beta".toList, "beta_0".toList, "Revenue growth of 10.0% expected".toList⟩]

/-- Query of the C3 witness (contains `">20"`). -/
def c3Query : Str := "Which partners have >20% growth?".toList

/-- C3 amended witness: with captures `25.0` and `10.0`, the branch
renders exactly the alpha bullet tagged High Momentum and excludes
beta. -/
theorem c3_amended_high_growth_filter_witness :
    ((containsSub gt20L c3Query || containsSub highL c3Query) = true
      ∧ growthMatches c3Chunks ≠ []
      ∧ ∀ pv ∈ growthMatches c3Chunks, (parseFloatQ pv.2).isSome = true)
    ∧ growthBranch c3Query c3Chunks
        = some (if ((growthMatches c3Chunks).filter
              (fun pv => hiThreshold < gvalQ pv.2)) = [] then
              noneHighMsg
            else headingG ++ List.intercalate ['\n']
              (((growthMatches c3Chunks).filter (fun pv => hiThreshold < gvalQ pv.2)).map
                (fun pv => "- ".toList ++ bulletHigh pv)))
    ∧ growthBranch c3Query c3Chunks
        = some (headingG ++ ("- **alpha** (25.0% growth) - High Momentum".toList)) :=
  ⟨⟨by decide, by decide, by decide⟩,
    c3_amended_high_growth_filter c3Query c3Chunks (by decide) (by decide) (by decide),
    by decide⟩

/-! ### Document ids from filenames -/

/-- C8 counterexample: `filename.replace(".md", "")` removes every
occurrence, so `a.md.md` gets id `a`, not the filename without its
extension (`a.md`). -/
theorem c8_cex_replace_all :
    (loadDocuments [("a.md.md".toList, "x".toList)]).map (fun d => d.id) = ["a".toList]
    ∧ ("a".toList : Str) ≠ "a.md".toList := by
  decide

/-- A guarded `filterMap` is a filter followed by a map. -/
theorem filterMap_guard (P : α → Prop) [DecidablePred P] (g : α → β) :
    ∀ l : List α, (l.filterMap (fun a => if P a then some (g a) else none))
      = (l.filter (fun a => decide (P a))).map g := by
  intro l
  induction l with
  | nil => rfl
  | cons a l ih =>
    by_cases hP : P a
    · simp [hP, ih]
    · simp [hP, ih]

/-- A successful `endswith` test splits the string at its tail. -/
theorem endsW_decomp {p s : Str} (h : endsW p s = true) :
    p.length ≤ s.length ∧ s = s.take (s.length - p.length) ++ p := by
  unfold endsW at h
  rcases begins_iff.mp h with ⟨t, ht⟩
  have hlen1 : (s.drop (s.length - p.length)).length = p.length + t.length := by
    rw [ht]
    simp
  rw [List.length_drop] at hlen1
  have hle : p.length ≤ s.length := by omega
  have ht0 : t.length = 0 := by omega
  have htnil : t = [] := List.eq_nil_of_length_eq_zero ht0
  subst htnil
  rw [List.append_nil] at ht
  refine ⟨hle, ?_⟩
  conv_lhs => rw [← List.take_append_drop (s.length - p.length) s]
  rw [ht]

/-- The ids recorded by `load_documents` are the `.md`-stripped names of
the markdown files, in listing order. -/
theorem loadDocuments_ids (listing : List (Str × Str)) :
    (loadDocuments listing).map (fun d => d.id)
      = (listing.filter (fun fc => endsW mdExt fc.1)).map
          (fun fc => pyReplace mdExt [] fc.1) := by
  unfold loadDocuments
  rw [filterMap_guard (fun fc : Str × Str => endsW mdExt fc.1 = true)
    (fun fc => (⟨pyReplace mdExt [] fc.1, fc.2⟩ : Doc)) listing]
  rw [List.map_map]
  have hpred : (fun a : Str × Str => decide (endsW mdExt a.1 = true))
      = (fun fc : Str × Str => endsW mdExt fc.1) := by
    funext a
    simp
  rw [hpred]
  rfl

/-- On a name whose only `.md` occurrence is its final extension,
`replace(".md", "")` strips exactly that extension. -/
theorem md_stem {s : Str} (hend : endsW mdExt s = true)
    (huniq : ∀ i, i < s.length → occursAt mdExt s i = true → i = s.length - 3) :
    pyReplace mdExt [] s = s.take (s.length - 3) := by
  have h3 : mdExt.length = 3 := by decide
  rcases endsW_decomp hend with ⟨hle, hs⟩
  rw [h3] at hle hs
  have hlen : (s.take (s.length - 3)).length = s.length - 3 := by
    rw [List.length_take]
    omega
  have happ : s = s.take (s.length - 3) ++ mdExt ++ [] := by
    rw [List.append_nil]
    exact hs
  have hrepl := pyReplace_unique (p := mdExt) (r := []) (by decide)
    (s.take (s.length - 3)) [] ?uni
  case uni =>
    intro i hi
    rw [← happ] at hi
    have hilt : i < s.length := occursAt_lt_length hi (by decide)
    rw [hlen]
    exact huniq i hilt hi
  rw [← happ] at hrepl
  rw [hrepl]
  simp

/-- C8 amended: for every `.md` filename whose only `.md` occurrence is
its terminal extension, the recorded id is the filename without that
extension; when moreover the filenames are pairwise distinct, the ids of
one corpus load are pairwise distinct. -/
theorem c8_amended_ids (listing : List (Str × Str))
    (hnod : (listing.map (fun fc => fc.1)).Nodup)
    (huniq : ∀ fc ∈ listing, endsW mdExt fc.1 = true →
        ∀ i, i < fc.1.length → occursAt mdExt fc.1 i = true → i = fc.1.length - 3) :
    (loadDocuments listing).map (fun d => d.id)
      = (listing.filter (fun fc => endsW mdExt fc.1)).map
          (fun fc => fc.1.take (fc.1.length - 3))
    ∧ ((loadDocuments listing).map (fun d => d.id)).Nodup := by
  have hids := loadDocuments_ids listing
  have hmapeq : (listing.filter (fun fc => endsW mdExt fc.1)).map
        (fun fc => pyReplace mdExt [] fc.1)
      = (listing.filter (fun fc => endsW mdExt fc.1)).map
          (fun fc => fc.1.take (fc.1.length - 3)) := by
    apply List.map_congr_left
    intro fc hfc
    have hmem := (List.mem_filter.mp hfc).1
    have hend : endsW mdExt fc.1 = true := by
      simpa using (List.mem_filter.mp hfc).2
    exact md_stem hend (huniq fc hmem hend)
  refine ⟨by rw [hids, hmapeq], ?_⟩
  rw [hids, hmapeq]
  have hfun : (fun fc : Str × Str => fc.1.take (fc.1.length - 3))
      = (fun n : Str => n.take (n.length - 3)) ∘ (fun fc : Str × Str => fc.1) := rfl
  rw [hfun, ← List.map_map]
  have hnodn : ((listing.filter (fun fc => endsW mdExt fc.1)).map
      (fun fc : Str × Str => fc.1)).Nodup :=
    hnod.sublist ((List.filter_sublist _).map _)
  apply List.Nodup.map_on ?inj hnodn
  case inj =>
    intro n1 h1 n2 h2 heq
    have hd1 : endsW mdExt n1 = true := by
      rcases List.mem_map.mp h1 with ⟨fc, hfc, rfl⟩
      simpa using (List.mem_filter.mp hfc).2
    have hd2 : endsW mdExt n2 = true := by
      rcases List.mem_map.mp h2 with ⟨fc, hfc, rfl⟩
      simpa using (List.mem_filter.mp hfc).2
    have h3 : mdExt.length = 3 := by decide
    have e1 := (endsW_decomp hd1).2
    have e2 := (endsW_decomp hd2).2
    rw [h3] at e1 e2
    rw [e1, e2, heq]

/-- C8 amended witness: two well-formed filenames give the two stems, and
the ids are distinct. -/
theorem c8_amended_ids_witness :
    ((([("a.md".toList, "x".toList), ("b.md".toList, "y".toList)].map
        (fun fc => fc.1)).Nodup)
      ∧ (loadDocuments [("a.md".toList, "x".toList), ("b.md".toList, "y".toList)]).map
          (fun d => d.id)
        = ([("a.md".toList, "x".toList), ("b.md".toList, "y".toList)].filter
            (fun fc => endsW mdExt fc.1)).map (fun fc => fc.1.take (fc.1.length - 3))
      ∧ (((loadDocuments [("a.md".toList, "x".toList), ("b.md".toList, "y".toList)]).map
          (fun d => d.id)).Nodup)) :=
  ⟨by decide,
    (c8_amended_ids [("a.md".toList, "x".toList), ("b.md".toList, "y".toList)]
      (by decide) (by decide)).1,
    (c8_amended_ids [("a.md".toList, "x".toList), ("b.md".toList, "y".toList)]
      (by decide) (by decide)).2⟩

/-! ### Chunk identifiers -/

/-- The characters rendered for one decimal digit are digits. -/
theorem digitChar_isDigit {k : Nat} (hk : k < 10) :
    (Char.ofNat (48 + k)).isDigit = true := by
  interval_cases k <;> decide

/-- The decimal digit characters are injective. -/
theorem digitChar_inj {k l : Nat} (hk : k < 10) (hl : l < 10)
    (h : Char.ofNat (48 + k) = Char.ofNat (48 + l)) : k = l := by
  interval_cases k <;> interval_cases l <;> simp_all <;> rfl

/-- Every character of a rendered number is a digit. -/
theorem natDigs_digits : ∀ (n : Nat), ∀ c ∈ natDigs n, c.isDigit = true := by
  intro n
  induction n using Nat.strong_induction_on with
  | _ n ih =>
    intro c hc
    rw [natDigs_eq] at hc
    by_cases h10 : n < 10
    · rw [if_pos h10] at hc
      rcases List.mem_singleton.mp hc with rfl
      exact digitChar_isDigit h10
    · rw [if_neg h10] at hc
      rcases List.mem_append.mp hc with h | h
      · exact ih (n / 10) (Nat.div_lt_self (by omega) (by omega)) c h
      · rcases List.mem_singleton.mp h with rfl
        exact digitChar_isDigit (Nat.mod_lt n (by omega))

/-- A rendered number is never the empty string. -/
theorem natDigs_ne_nil (n : Nat) : natDigs n ≠ [] := by
  rw [natDigs_eq]
  by_cases h10 : n < 10
  · rw [if_pos h10]
    simp
  · rw [if_neg h10]
    simp

/-- Decimal rendering of naturals is injective. -/
theorem natDigs_inj : ∀ {n m : Nat}, natDigs n = natDigs m → n = m := by
  intro n
  induction n using Nat.strong_induction_on with
  | _ n ih =>
    intro m h
    rw [natDigs_eq n, natDigs_eq m] at h
    by_cases hn : n < 10 <;> by_cases hm : m < 10
    · rw [if_pos hn, if_pos hm] at h
      injection h with h1 _
      exact digitChar_inj hn hm h1
    · rw [if_pos hn, if_neg hm] at h
      exfalso
      have hlen := congrArg List.length h
      rw [List.length_append] at hlen
      simp only [List.length_singleton, List.length_cons] at hlen
      exact natDigs_ne_nil (m / 10) (List.eq_nil_of_length_eq_zero (by omega))
    · rw [if_neg hn, if_pos hm] at h
      exfalso
      have hlen := congrArg List.length h
      rw [List.length_append] at hlen
      simp only [List.length_singleton, List.length_cons] at hlen
      exact natDigs_ne_nil (n / 10) (List.eq_nil_of_length_eq_zero (by omega))
    · rw [if_neg hn, if_neg hm] at h
      have hlen : (natDigs (n / 10)).length = (natDigs (m / 10)).length := by
        have := congrArg List.length h
        simp at this
        omega
      rcases List.append_inj h hlen with ⟨h1, h2⟩
      have hdiv : n / 10 = m / 10 :=
        ih (n / 10) (Nat.div_lt_self (by omega) (by omega)) h1
      injection h2 with h3 _
      have hmod : n % 10 = m % 10 := by
        have := digitChar_inj (Nat.mod_lt n (by omega)) (Nat.mod_lt m (by omega)) h3
        exact this
      omega

/-- A string of the shape `a ++ "_" ++ digits` determines `a` and the
digit block: the separator cannot occur inside the digits. -/
theorem underscore_code_inj :
    ∀ (a b da db : Str), (∀ c ∈ da, c.isDigit = true) → (∀ c ∈ db, c.isDigit = true) →
      a ++ '_' :: da = b ++ '_' :: db → a = b ∧ da = db := by
  intro a
  induction a with
  | nil =>
    intro b da db hda hdb h
    cases b with
    | nil =>
      injection h with _ h2
      exact ⟨rfl, h2⟩
    | cons y b' =>
      exfalso
      rw [List.nil_append] at h
      injection h with h1 h2
      have : '_' ∈ da := by
        rw [h2]
        exact List.mem_append.mpr (Or.inr (List.mem_cons_self _ _))
      have := hda _ this
      simp [Char.isDigit] at this
  | cons x a' ih =>
    intro b da db hda hdb h
    cases b with
    | nil =>
      exfalso
      rw [List.nil_append] at h
      injection h with h1 h2
      have : '_' ∈ db := by
        rw [← h2]
        exact List.mem_append.mpr (Or.inr (List.mem_cons_self _ _))
      have := hdb _ this
      simp [Char.isDigit] at this
    | cons y b' =>
      injection h with h1 h2
      rcases ih b' da db hda hdb h2 with ⟨hab, hd⟩
      exact ⟨by rw [h1, hab], hd⟩

/-- `create_chunks` on one document, as a filter of the enumerated
paragraphs followed by chunk construction. -/
theorem chunksOfDoc_eq (d : Doc) :
    chunksOfDoc d
      = (((pySplit nlnl d.content).enum.filter
          (fun ip => decide (stripL ip.2 ≠ []))).map
        (fun ip => (⟨d.id, d.id ++ '_' :: natDigs ip.1, stripL ip.2⟩ : Chunk))) := by
  unfold chunksOfDoc
  exact filterMap_guard (fun ip : Nat × Str => stripL ip.2 ≠ [])
    (fun ip => (⟨d.id, d.id ++ '_' :: natDigs ip.1, stripL ip.2⟩ : Chunk)) _

/-- The kept paragraph positions of one document, in order. -/
def keptIdx (d : Doc) : List Nat :=
  ((pySplit nlnl d.content).enum.filter (fun ip => decide (stripL ip.2 ≠ []))).map
    (fun ip => ip.1)

/-- The chunk ids of one document are its document id, an underscore and
the decimal position of each kept paragraph. -/
theorem chunksOfDoc_ids (d : Doc) :
    (chunksOfDoc d).map (fun c => c.chunk_id)
      = (keptIdx d).map (fun i => d.id ++ '_' :: natDigs i) := by
  rw [chunksOfDoc_eq]
  unfold keptIdx
  rw [List.map_map, List.map_map]
  rfl

/-- The kept positions are strictly increasing (hence without duplicates),
but not necessarily consecutive. -/
theorem keptIdx_sorted (d : Doc) : (keptIdx d).Pairwise (fun i j => i < j) := by
  unfold keptIdx
  have henum : ((pySplit nlnl d.content).enum.map (fun ip => ip.1)).Pairwise
      (fun i j => i < j) := by
    have := List.enum_map_fst (pySplit nlnl d.content)
    rw [show (fun ip : Nat × Str => ip.1) = Prod.fst from rfl, this]
    exact List.pairwise_lt_range _
  have hsub : (((pySplit nlnl d.content).enum.filter
        (fun ip => decide (stripL ip.2 ≠ []))).map (fun ip => ip.1)).Sublist
      ((pySplit nlnl d.content).enum.map (fun ip => ip.1)) :=
    (List.filter_sublist _).map _
  exact List.Pairwise.sublist hsub henum

/-- Membership in the id list of one document. -/
theorem mem_chunksOfDoc_ids {d : Doc} {x : Str}
    (hx : x ∈ (chunksOfDoc d).map (fun c => c.chunk_id)) :
    ∃ i, x = d.id ++ '_' :: natDigs i := by
  rw [chunksOfDoc_ids] at hx
  rcases List.mem_map.mp hx with ⟨i, _, rfl⟩
  exact ⟨i, rfl⟩

/-- C7 counterexample: a leading all-whitespace paragraph gives the only
kept chunk of document `d` the identifier `d_1` — the kept indices are
neither zero-based nor sequential — and two documents sharing an id (as
two files named `a.md` and `a.md.md` produce) duplicate chunk ids. -/
theorem c7_cex_gapped_ids :
    createChunks [⟨"d".toList, " \n\nb".toList⟩]
      = [⟨"d".toList, "d_1".toList, "b".toList⟩]
    ∧ ("d_1".toList : Str) ≠ "d_0".toList
    ∧ ¬ ((createChunks [⟨"a".toList, "x".toList⟩, ⟨"a".toList, "x".toList⟩]).map
        (fun c => c.chunk_id)).Nodup := by
  decide

/-- C7 amended: chunk texts are non-empty stripped paragraphs; each chunk
id is its document's id, an underscore, and the decimal position of the
paragraph among all split paragraphs of that document (positions strictly
increase but may skip the discarded blank paragraphs); and chunk ids are
unique within a load provided the document ids are pairwise distinct. -/
theorem c7_amended_chunk_invariants (docs : List Doc)
    (hnod : (docs.map (fun d => d.id)).Nodup) :
    ((createChunks docs).map (fun c => c.chunk_id)).Nodup
    ∧ (∀ d ∈ docs, (keptIdx d).Pairwise (fun i j => i < j)
        ∧ chunksOfDoc d = (((pySplit nlnl d.content).enum.filter
            (fun ip => decide (stripL ip.2 ≠ []))).map
          (fun ip => (⟨d.id, d.id ++ '_' :: natDigs ip.1, stripL ip.2⟩ : Chunk))))
    ∧ (∀ c ∈ createChunks docs, c.text ≠ []
        ∧ ∃ d ∈ docs, c.doc_id = d.id
          ∧ ∃ i p, (pySplit nlnl d.content)[i]? = some p
            ∧ c.chunk_id = d.id ++ '_' :: natDigs i ∧ c.text = stripL p) := by
  refine ⟨?_, ?_, ?_⟩
  · -- uniqueness of the chunk ids
    unfold createChunks
    rw [List.map_flatMap]
    apply List.nodup_flatMap.mpr
    constructor
    · intro d _
      rw [chunksOfDoc_ids]
      have hinj : Function.Injective (fun i => d.id ++ '_' :: natDigs i) := by
        intro i j hij
        simp only at hij
        have := List.append_cancel_left hij
        injection this with _ h2
        exact natDigs_inj h2
      have hnodk : (keptIdx d).Nodup :=
        (keptIdx_sorted d).imp (fun hlt => Nat.ne_of_lt hlt)
      exact hnodk.map hinj
    · have hpair : docs.Pairwise (fun d1 d2 => d1.id ≠ d2.id) :=
        List.pairwise_map.mp hnod
      refine hpair.imp ?_
      intro d1 d2 hne
      intro x hx1 hx2
      rcases mem_chunksOfDoc_ids hx1 with ⟨i, rfl⟩
      rcases mem_chunksOfDoc_ids hx2 with ⟨j, hj⟩
      rcases underscore_code_inj d1.id d2.id (natDigs i) (natDigs j)
        (fun c hc => natDigs_digits i c hc) (fun c hc => natDigs_digits j c hc) hj
        with ⟨h1, _⟩
      exact hne h1
  · intro d _
    exact ⟨keptIdx_sorted d, chunksOfDoc_eq d⟩
  · intro c hc
    unfold createChunks at hc
    rcases List.mem_flatMap.mp hc with ⟨d, hd, hcd⟩
    rw [chunksOfDoc_eq] at hcd
    rcases List.mem_map.mp hcd with ⟨ip, hip, rfl⟩
    have hkeep : stripL ip.2 ≠ [] := by
      have := (List.mem_filter.mp hip).2
      simpa using this
    have henum := (List.mem_filter.mp hip).1
    have hmem := List.mem_enum henum
    refine ⟨hkeep, d, hd, rfl, ip.1, ip.2, ?_, rfl, rfl⟩
    rw [List.getElem?_eq_getElem hmem.1]
    rw [← hmem.2]

/-- Documents for the C7 witness: distinct ids, one document with a blank
paragraph between two kept ones. -/
def c7Docs : List Doc :=
  [⟨"a".toList, "x\n\n \n\nz".toList⟩, ⟨"b".toList, "y".toList⟩]

/-- C7 amended witness: the chunk invariants on a concrete two-document
corpus whose first document skips a blank paragraph. -/
theorem c7_amended_chunk_invariants_witness :
    ((c7Docs.map (fun d => d.id)).Nodup)
    ∧ (((createChunks c7Docs).map (fun c => c.chunk_id)).Nodup
      ∧ (∀ d ∈ c7Docs, (keptIdx d).Pairwise (fun i j => i < j)
          ∧ chunksOfDoc d = (((pySplit nlnl d.content).enum.filter
              (fun ip => decide (stripL ip.2 ≠ []))).map
            (fun ip => (⟨d.id, d.id ++ '_' :: natDigs ip.1, stripL ip.2⟩ : Chunk))))
      ∧ (∀ c ∈ createChunks c7Docs, c.text ≠ []
          ∧ ∃ d ∈ c7Docs, c.doc_id = d.id
            ∧ ∃ i p, (pySplit nlnl d.content)[i]? = some p
              ∧ c.chunk_id = d.id ++ '_' :: natDigs i ∧ c.text = stripL p)) :=
  ⟨by decide, c7_amended_chunk_invariants c7Docs (by decide)⟩

/-! ### Tokenizer structure lemmas -/

/-- `Char.ofNat` below the surrogate range keeps the code point. -/
theorem charOfNat_toNat {n : Nat} (h : n < 55296) : (Char.ofNat n).toNat = n := by
  unfold Char.ofNat
  rw [dif_pos (Or.inl h)]
  rfl

/-- ASCII lowering is idempotent. -/
theorem toLower_idem (c : Char) : Char.toLower (Char.toLower c) = Char.toLower c := by
  simp only [Char.toLower]
  by_cases h : c.toNat ≥ 65 ∧ c.toNat ≤ 90
  · rw [if_pos h]
    have h32 : (Char.ofNat (c.toNat + 32)).toNat = c.toNat + 32 := charOfNat_toNat (by omega)
    rw [if_neg (by rw [h32]; omega)]
  · rw [if_neg h, if_neg h]

/-- Characters of a lowered string are fixed by lowering. -/
theorem lowerL_lowered {s : Str} : ∀ c ∈ lowerL s, Char.toLower c = c := by
  intro c hc
  rcases List.mem_map.mp hc with ⟨c0, _, rfl⟩
  exact toLower_idem c0

/-- A string of lowering-fixed characters is fixed by `lowerL`. -/
theorem lowerL_fix {s : Str} (h : ∀ c ∈ s, Char.toLower c = c) : lowerL s = s := by
  unfold lowerL
  rw [List.map_congr_left h]
  exact List.map_id _

/-- `lower` distributes over concatenation. -/
theorem lowerL_append (a b : Str) : lowerL (a ++ b) = lowerL a ++ lowerL b :=
  List.map_append _ _ _

/-- `takeWhile` covers the whole list iff the test holds everywhere. -/
theorem takeWhile_length_eq_iff {p : α → Bool} {l : List α} :
    (l.takeWhile p).length = l.length ↔ ∀ x ∈ l, p x = true := by
  constructor
  · intro h
    apply List.takeWhile_eq_self_iff.mp
    exact (List.takeWhile_sublist p).eq_of_length h
  · intro h
    rw [List.takeWhile_eq_self_iff.mpr h]

/-- Tokens do not cross a character outside the class: tokenizing around
such a separator splits into the two sides' tokens. -/
theorem tokensBy_append_barrier (p : Char → Bool) {c : Char} (hc : p c = false)
    (u v : Str) :
    wordTokensBy p (u ++ c :: v) = wordTokensBy p u ++ wordTokensBy p v := by
  suffices H : ∀ (n : Nat) (u' : Str), u'.length ≤ n →
      wordTokensBy p (u' ++ c :: v) = wordTokensBy p u' ++ wordTokensBy p v from
    H u.length u (Nat.le_refl _)
  intro n
  induction n with
  | zero =>
    intro u' hu
    have : u' = [] := List.eq_nil_of_length_eq_zero (Nat.le_zero.mp hu)
    subst this
    rw [List.nil_append, wordTokensBy_cons, if_neg (by simp [hc]), wordTokensBy_nil,
      List.nil_append]
  | succ m ih =>
    intro u' hu
    cases u' with
    | nil =>
      rw [List.nil_append, wordTokensBy_cons, if_neg (by simp [hc]), wordTokensBy_nil,
        List.nil_append]
    | cons a u'' =>
      simp only [List.length_cons] at hu
      rw [List.cons_append, wordTokensBy_cons, wordTokensBy_cons]
      by_cases ha : p a = true
      · rw [if_pos ha, if_pos ha]
        by_cases hall : ∀ x ∈ u'', p x = true
        · rw [List.takeWhile_append_of_pos hall, List.dropWhile_append_of_pos hall,
            List.takeWhile_cons_of_neg (by simp [hc]), List.dropWhile_cons_of_neg (by simp [hc]),
            List.takeWhile_eq_self_iff.mpr hall, List.dropWhile_eq_nil_iff.mpr hall,
            wordTokensBy_nil, wordTokensBy_cons, if_neg (by simp [hc])]
          simp
        · have hTlen : ¬ ((u''.takeWhile p).length = u''.length) := by
            intro hlen
            exact hall (takeWhile_length_eq_iff.mp hlen)
          have hDne : ¬ ((u''.dropWhile p).isEmpty = true) := by
            rw [List.isEmpty_iff, List.dropWhile_eq_nil_iff]
            exact hall
          rw [List.takeWhile_append, if_neg hTlen, List.dropWhile_append, if_neg hDne]
          have hd := length_dropWhile_le_len p u''
          rw [ih (u''.dropWhile p) (by omega)]
          simp
      · rw [if_neg ha, if_neg ha]
        exact ih u'' (by omega)

/-- Every token is a non-empty run of class characters. -/
theorem mem_tokensBy_all {p : Char → Bool} {t s : Str}
    (ht : t ∈ wordTokensBy p s) : t ≠ [] ∧ t.all p = true := by
  suffices H : ∀ (n : Nat) (s' : Str), s'.length ≤ n → t ∈ wordTokensBy p s' →
      t ≠ [] ∧ t.all p = true from H s.length s (Nat.le_refl _) ht
  intro n
  induction n with
  | zero =>
    intro s' hs hmem
    have : s' = [] := List.eq_nil_of_length_eq_zero (Nat.le_zero.mp hs)
    subst this
    rw [wordTokensBy_nil] at hmem
    cases hmem
  | succ m ih =>
    intro s' hs hmem
    cases s' with
    | nil =>
      rw [wordTokensBy_nil] at hmem
      cases hmem
    | cons a s'' =>
      simp only [List.length_cons] at hs
      rw [wordTokensBy_cons] at hmem
      by_cases ha : p a = true
      · rw [if_pos ha] at hmem
        rcases List.mem_cons.mp hmem with rfl | hmem2
        · refine ⟨by simp, ?_⟩
          rw [List.all_cons, ha, Bool.true_and, List.all_eq_true]
          intro x hx
          exact List.mem_takeWhile_imp hx
        · have hd := length_dropWhile_le_len p s''
          exact ih (s''.dropWhile p) (by omega) hmem2
      · rw [if_neg ha] at hmem
        exact ih s'' (by omega) hmem

/-- Every token occurs inside the tokenized string. -/
theorem mem_tokensBy_infix {p : Char → Bool} {t s : Str}
    (ht : t ∈ wordTokensBy p s) : ∃ x y, s = x ++ t ++ y := by
  suffices H : ∀ (n : Nat) (s' : Str), s'.length ≤ n → t ∈ wordTokensBy p s' →
      ∃ x y, s' = x ++ t ++ y from H s.length s (Nat.le_refl _) ht
  intro n
  induction n with
  | zero =>
    intro s' hs hmem
    have : s' = [] := List.eq_nil_of_length_eq_zero (Nat.le_zero.mp hs)
    subst this
    rw [wordTokensBy_nil] at hmem
    cases hmem
  | succ m ih =>
    intro s' hs hmem
    cases s' with
    | nil =>
      rw [wordTokensBy_nil] at hmem
      cases hmem
    | cons a s'' =>
      simp only [List.length_cons] at hs
      rw [wordTokensBy_cons] at hmem
      by_cases ha : p a = true
      · rw [if_pos ha] at hmem
        rcases List.mem_cons.mp hmem with rfl | hmem2
        · refine ⟨[], s''.dropWhile p, ?_⟩
          rw [List.nil_append]
          rw [List.cons_append]
          rw [List.takeWhile_append_dropWhile]
        · have hd := length_dropWhile_le_len p s''
          rcases ih (s''.dropWhile p) (by omega) hmem2 with ⟨x, y, hxy⟩
          refine ⟨a :: s''.takeWhile p ++ x, y, ?_⟩
          have : (a :: s'' : Str) = a :: (s''.takeWhile p ++ s''.dropWhile p) := by
            rw [List.takeWhile_append_dropWhile]
          rw [this, hxy]
          simp
      · rw [if_neg ha] at hmem
        rcases ih s'' (by omega) hmem with ⟨x, y, hxy⟩
        exact ⟨a :: x, y, by rw [hxy]; simp⟩

/-- A single non-empty all-class string is its own unique token. -/
theorem tokensBy_singleton {p : Char → Bool} {t : Str}
    (hne : t ≠ []) (hall : t.all p = true) : wordTokensBy p t = [t] := by
  rcases List.exists_cons_of_ne_nil hne with ⟨a, t', rfl⟩
  rw [List.all_cons, Bool.and_eq_true] at hall
  rw [wordTokensBy_cons, if_pos hall.1]
  rw [List.takeWhile_eq_self_iff.mpr (List.all_eq_true.mp hall.2),
    List.dropWhile_eq_nil_iff.mpr (List.all_eq_true.mp hall.2), wordTokensBy_nil]

/-! ### Substring tests under token append -/

/-- An occurrence anywhere yields the substring test. -/
theorem containsSub_of_occ {p s : Str} {i : Nat} (h : occursAt p s i = true) :
    containsSub p s = true := by
  cases hp : p with
  | nil =>
    apply List.any_eq_true.mpr
    refine ⟨0, List.mem_range.mpr (by omega), ?_⟩
    simp [occursAt, begins]
  | cons a q =>
    subst hp
    apply List.any_eq_true.mpr
    have hlt := occursAt_lt_length h (by simp)
    exact ⟨i, List.mem_range.mpr (by omega), h⟩

/-- The substring test yields an occurrence. -/
theorem containsSub_some_occ {p s : Str} (h : containsSub p s = true) :
    ∃ i, occursAt p s i = true := by
  rcases List.any_eq_true.mp h with ⟨i, _, hi⟩
  exact ⟨i, hi⟩

/-- Appending a space and a string already occurring in `A` does not
change any space-free substring test on `A`. -/
theorem containsSub_append_token {kw : Str} (hsp : ' ' ∉ kw) {A t : Str}
    (hinf : ∃ x y, A = x ++ t ++ y) :
    containsSub kw (A ++ ' ' :: t) = containsSub kw A := by
  by_cases hA : containsSub kw A = true
  · rw [hA]
    rcases containsSub_iff.mp hA with ⟨a, b, rfl⟩
    exact containsSub_iff.mpr ⟨a, b ++ ' ' :: t, by simp⟩
  · have hA' : containsSub kw A = false := Bool.eq_false_iff.mpr hA
    rw [hA']
    apply Bool.eq_false_iff.mpr
    intro hL
    rcases containsSub_some_occ hL with ⟨i, hi⟩
    rcases occursAt_split hsp hi with hin | ⟨_, hin⟩
    · exact hA (containsSub_of_occ hin)
    · have hkt : containsSub kw t = true := containsSub_of_occ hin
      rcases hinf with ⟨x, y, rfl⟩
      have htA : containsSub t (x ++ t ++ y) = true := containsSub_iff.mpr ⟨x, y, rfl⟩
      exact hA (containsSub_trans hkt htA)

/-! ### Set semantics of the token overlap -/

/-- `dedup` commutes with `filter`. -/
theorem dedup_filter_comm [DecidableEq α] (p : α → Bool) :
    ∀ l : List α, (l.filter p).dedup = l.dedup.filter p := by
  intro l
  induction l with
  | nil => rfl
  | cons a l ih =>
    by_cases hp : p a = true
    · rw [List.filter_cons_of_pos hp]
      by_cases hm : a ∈ l
      · rw [List.dedup_cons_of_mem (List.mem_filter.mpr ⟨hm, hp⟩),
          List.dedup_cons_of_mem hm, ih]
      · rw [List.dedup_cons_of_not_mem (fun hc => hm (List.mem_filter.mp hc).1),
          List.dedup_cons_of_not_mem hm, List.filter_cons_of_pos hp, ih]
    · rw [List.filter_cons_of_neg (by simpa using hp)]
      by_cases hm : a ∈ l
      · rw [List.dedup_cons_of_mem hm, ih]
      · rw [List.dedup_cons_of_not_mem hm, List.filter_cons_of_neg (by simpa using hp), ih]

/-- Cardinality of the intersection of two Python sets of strings, as the
count of distinct elements of the first list lying in the second. -/
theorem inter_card_eq (l₁ l₂ : List Str) :
    (l₁.toFinset ∩ l₂.toFinset).card
      = (l₁.dedup.filter (fun t => decide (t ∈ l₂))).length := by
  have h1 : l₁.toFinset ∩ l₂.toFinset = (l₁.filter (fun t => decide (t ∈ l₂))).toFinset := by
    ext a
    simp [List.mem_filter]
  rw [h1, List.card_toFinset, dedup_filter_comm]

/-- Chunk used by the C1 counterexample and witness. -/
def c1Chunk : Chunk := ⟨"d".toList, "d_0".toList, "a b".toList⟩

/-- C1 counterexample: the source tokenizes with `\w` (underscore
included), not with alphanumeric runs: on query `a_b` against chunk text
`a b` the code scores 0, while the claimed alphanumeric-run formula gives
2. -/
theorem c1_cex_underscore_token :
    scoreOf ("a_b".toList) c1Chunk = 0
    ∧ specScore ("a_b".toList) c1Chunk = 2
    ∧ scoreOf ("a_b".toList) c1Chunk ≠ specScore ("a_b".toList) c1Chunk := by
  decide

/-- C1 amended: the score equals the number of distinct case-folded word
tokens (maximal runs of word characters: alphanumeric or underscore)
shared between query and chunk text, plus 2 per keyword (`growth`,
`manufacturing`) contained case-insensitively in both; and appending to
the query a token it already has never changes (in particular never
increases) the score. -/
theorem c1_amended_score_formula :
    (∀ q c, scoreOf q c = specScoreW q c)
    ∧ (∀ (q t : Str) (c : Chunk), t ∈ wordTokens (lowerL q) →
        scoreOf (q ++ ' ' :: t) c = scoreOf q c) := by
  constructor
  · intro q c
    unfold scoreOf specScoreW tokF
    rw [inter_card_eq]
  · intro q t c ht
    have htall := mem_tokensBy_all (show t ∈ wordTokensBy wordChar (lowerL q) from ht)
    have hinf0 := mem_tokensBy_infix (show t ∈ wordTokensBy wordChar (lowerL q) from ht)
    have hlowt : List.map Char.toLower t = t := by
      apply lowerL_fix
      intro ch hch
      rcases hinf0 with ⟨x, y, hxy⟩
      have hchq : ch ∈ lowerL q := by
        rw [hxy]
        simp [hch]
      exact lowerL_lowered _ hchq
    have hqL : lowerL (q ++ ' ' :: t) = lowerL q ++ ' ' :: t := by
      rw [show (q ++ ' ' :: t : Str) = q ++ (' ' :: t) from rfl, lowerL_append]
      congr 1
      show List.map Char.toLower (' ' :: t) = ' ' :: t
      rw [List.map_cons, hlowt]
      rfl
    have htoks : wordTokens (lowerL (q ++ ' ' :: t)) = wordTokens (lowerL q) ++ [t] := by
      rw [hqL]
      show wordTokensBy wordChar (lowerL q ++ ' ' :: t) = _
      rw [tokensBy_append_barrier wordChar (by decide) (lowerL q) t]
      congr 1
      exact tokensBy_singleton htall.1 htall.2
    have hfin : tokF (lowerL (q ++ ' ' :: t)) = tokF (lowerL q) := by
      unfold tokF
      rw [htoks, List.toFinset_append]
      apply Finset.union_eq_left.mpr
      intro x hx
      have hxt : x = t := by
        simpa using hx
      subst hxt
      exact List.mem_toFinset.mpr ht
    have hg : containsSub growthKw (lowerL (q ++ ' ' :: t)) = containsSub growthKw (lowerL q) := by
      rw [hqL]
      exact containsSub_append_token (by decide) hinf0
    have hman : containsSub manufKw (lowerL (q ++ ' ' :: t)) = containsSub manufKw (lowerL q) := by
      rw [hqL]
      exact containsSub_append_token (by decide) hinf0
    unfold scoreOf
    rw [hfin, hg, hman]

/-- Chunk with growth text for the C1 witness. -/
def c1WChunk : Chunk := ⟨"g".toList, "g_0".toList, "growth data here".toList⟩

/-- C1 amended witness: the code/spec score agreement and the
token-repetition invariance at a concrete query and chunk. -/
theorem c1_amended_score_formula_witness :
    ("growth".toList ∈ wordTokens (lowerL ("growth data".toList)))
    ∧ scoreOf ("growth data".toList ++ ' ' :: "growth".toList) c1WChunk
        = scoreOf ("growth data".toList) c1WChunk
    ∧ scoreOf ("growth data".toList) c1WChunk = specScoreW ("growth data".toList) c1WChunk :=
  ⟨by decide,
    c1_amended_score_formula.2 ("growth data".toList) ("growth".toList) c1WChunk (by decide),
    c1_amended_score_formula.1 ("growth data".toList) c1WChunk⟩

/-! ### The RESPONSE: marker and the spliced answer -/

set_option maxRecDepth 8000 in
set_option maxHeartbeats 1600000 in
/-- C5 counterexample: a query containing the marker makes `replace` fire
twice — the trace then contains the marker twice and the answer twice,
refuting the unconditional exactly-once claim. -/
theorem c5_cex_marker_in_query :
    (queryModel (engineChunks [("d.md".toList, "hello".toList)])
        ("hello RESPONSE:".toList) none).map
      (fun pr => (countOcc markerL pr.2, countOcc pr.1 pr.2)) = some (2, 2) := by
  decide

/-- A pattern with a unique occurrence occurs only at that position. -/
theorem countOcc_unique {p s : Str} {k : Nat} (hp : p ≠ [])
    (hc : countOcc p s = 1) (hk : occursAt p s k = true) :
    ∀ i, occursAt p s i = true → i = k := by
  intro i hi
  by_contra hne
  rcases Nat.lt_or_ge i k with h | h
  · have := two_le_countOcc hp h hi hk
    omega
  · have hik : k < i := by omega
    have := two_le_countOcc hp hik hk hi
    omega

/-- C5 amended: when the marker occurs exactly once in the rendered
prompt and does not occur in the synthesized answer, the trace is the
prompt prefix, the marker, a newline, the answer and a final newline — so
the trace contains the marker exactly once and the answer follows it
immediately on the next line. -/
theorem c5_amended_marker_splice (chunks : List Chunk) (q : Str) (sp : Option Str)
    (ans trace : Str)
    (hne : retrieveL chunks q 5 ≠ [])
    (hrun : queryModel chunks q sp = some (ans, trace))
    (hcount : countOcc markerL (genPrompt q (retrieveL chunks q 5) sp) = 1)
    (hans : containsSub markerL ans = false) :
    trace = promptPre q (retrieveL chunks q 5) sp ++ markerL ++ '\n' :: (ans ++ ['\n'])
    ∧ countOcc markerL trace = 1 := by
  unfold queryModel at hrun
  rw [if_neg hne] at hrun
  rcases Option.map_eq_some'.mp hrun with ⟨resp0, _, heq⟩
  have hae := congrArg Prod.fst heq
  have hte := congrArg Prod.snd heq
  simp only at hae hte
  rw [hae] at hte
  have hgen : genPrompt q (retrieveL chunks q 5) sp
      = promptPre q (retrieveL chunks q 5) sp ++ (markerL ++ ['\n']) := by
    unfold genPrompt
    rw [List.append_assoc]
  have hocc : occursAt markerL (genPrompt q (retrieveL chunks q 5) sp)
      (promptPre q (retrieveL chunks q 5) sp).length = true := by
    unfold occursAt
    rw [hgen, List.drop_left]
    exact begins_append _ _
  have huniq := countOcc_unique (by decide) hcount hocc
  have hrepl : pyReplace markerL (markerL ++ '\n' :: ans)
        (genPrompt q (retrieveL chunks q 5) sp)
      = promptPre q (retrieveL chunks q 5) sp ++ (markerL ++ '\n' :: ans) ++ ['\n'] := by
    have hu : ∀ i, occursAt markerL
        (promptPre q (retrieveL chunks q 5) sp ++ markerL ++ ['\n']) i = true →
        i = (promptPre q (retrieveL chunks q 5) sp).length := by
      intro i hi
      apply huniq
      rw [hgen, ← List.append_assoc]
      exact hi
    have hun := pyReplace_unique (p := markerL) (r := markerL ++ '\n' :: ans) (by decide)
      (promptPre q (retrieveL chunks q 5) sp) ['\n'] hu
    rw [hgen, ← List.append_assoc]
    exact hun
  rw [hrepl] at hte
  have htr : promptPre q (retrieveL chunks q 5) sp ++ (markerL ++ '\n' :: ans) ++ ['\n']
      = (promptPre q (retrieveL chunks q 5) sp ++ markerL) ++ '\n' :: (ans ++ ['\n']) := by
    simp
  constructor
  · rw [← hte, htr]
  · rw [← hte]
    apply countOcc_eq_one_of (k := (promptPre q (retrieveL chunks q 5) sp).length)
    · unfold occursAt
      rw [show promptPre q (retrieveL chunks q 5) sp ++ (markerL ++ '\n' :: ans) ++ ['\n']
          = promptPre q (retrieveL chunks q 5) sp ++ ((markerL ++ '\n' :: ans) ++ ['\n'])
          from by simp]
      rw [List.drop_left]
      rw [show ((markerL ++ '\n' :: ans) ++ ['\n'] : Str)
          = markerL ++ ('\n' :: ans ++ ['\n']) from by simp]
      exact begins_append _ _
    · intro i hi
      rw [htr] at hi
      rcases occursAt_split (by decide) hi with hin | ⟨_, hin⟩
      · have hip : occursAt markerL (genPrompt q (retrieveL chunks q 5) sp) i = true := by
          rw [hgen, ← List.append_assoc]
          exact occursAt_append_left ['\n'] hin
        have := huniq i hip
        simpa using this
      · exfalso
        have hin' : occursAt markerL (ans ++ '\n' :: []) _ = true := hin
        rcases occursAt_split (by decide) hin' with hin2 | ⟨_, hin3⟩
        · have := containsSub_of_occ hin2
          rw [hans] at this
          cases this
        · have := occursAt_lt_length hin3 (by decide)
          simp at this

/-- Engine chunks of a one-document corpus for the C5 witness. -/
def c5Corpus : List Chunk := engineChunks [("d.md".toList, "hello".toList)]

/-- Query of the C5 witness. -/
def c5Q : Str := "hello".toList

/-- Answer computed by the model on the C5 witness corpus. -/
def c5Ans : Str := ((queryModel c5Corpus c5Q none).getD ([], [])).1

/-- Trace computed by the model on the C5 witness corpus. -/
def c5Trace : Str := ((queryModel c5Corpus c5Q none).getD ([], [])).2

set_option maxRecDepth 8000 in
set_option maxHeartbeats 1600000 in
/-- C5 amended witness: on a marker-free corpus and query, the trace
splices the answer right after the unique marker. -/
theorem c5_amended_marker_splice_witness :
    (retrieveL c5Corpus c5Q 5 ≠ []
      ∧ queryModel c5Corpus c5Q none = some (c5Ans, c5Trace)
      ∧ countOcc markerL (genPrompt c5Q (retrieveL c5Corpus c5Q 5) none) = 1
      ∧ containsSub markerL c5Ans = false)
    ∧ (c5Trace = promptPre c5Q (retrieveL c5Corpus c5Q 5) none
          ++ markerL ++ '\n' :: (c5Ans ++ ['\n'])
      ∧ countOcc markerL c5Trace = 1) :=
  ⟨⟨by decide, by decide, by decide, by decide⟩,
    c5_amended_marker_splice c5Corpus c5Q none c5Ans c5Trace
      (by decide) (by decide) (by decide) (by decide)⟩
